import Mathlib

/-!
Verification of the terraform-j2md plan-to-report pipeline
(`internal/terraform/plan.go`) against its specification.

The development shallowly embeds the pipeline:
  * a JSON value tree (`Json`) with a two-space-indent encoder mirroring
    `encoding/json.MarshalIndent` and a parser mirroring `encoding/json`
    validity and decoding;
  * the value normalizer (`format` / `formatJsonString`);
  * the change classifier of `NewPlanData` over modelled
    `terraform-json` action predicates;
  * the text/template report body (`planTemplateBody`) as a string builder;
  * the `go-difflib` unified diff used by `GetUnifiedDiffString`.

Modelling notes on external libraries (not part of this repository's source):
  * `github.com/hashicorp/terraform-json` action predicates are embedded
    from that library's definitions (exact singleton / pair checks).
  * `github.com/pmezard/go-difflib/difflib` is embedded from that library's
    `SequenceMatcher` / `WriteUnifiedDiff` with `IsJunk = nil` and
    `autoJunk = true`, as instantiated by `GetUnifiedDiffString`.
  * `encoding/json` number values are kept as their literal text (as Go's
    `json.RawMessage` compaction does); Go re-encodes decoded `any` trees
    with sorted object keys and float formatting, while this model keeps
    insertion order and literals.  Both are deterministic functions of the
    value, which is all the verified properties depend on.
-/

namespace J2MD

/-! ## JSON value trees

Go's `encoding/json` decodes into `any` trees (`nil`, `bool`, `float64`,
`string`, `[]any`, `map[string]any`).  The tree is modelled as a mutual
inductive; object fields keep their textual order and possible duplicates,
and numbers keep their literal spelling. -/

mutual
inductive Json : Type where
  | null : Json
  | bool : Bool → Json
  | num : String → Json
  | str : String → Json
  | arr : JArr → Json
  | obj : JObj → Json
  deriving DecidableEq, Repr
inductive JArr : Type where
  | nil : JArr
  | cons : Json → JArr → JArr
  deriving DecidableEq, Repr
inductive JObj : Type where
  | nil : JObj
  | cons : String → Json → JObj → JObj
  deriving DecidableEq, Repr
end

/-! ## Encoder

Mirrors `json.MarshalIndent(v, "", "  ")`: elements and fields one per
line, indented two spaces per level, `[]` / `\x7b\x7d` for empty
containers, `"key": value` fields.  String escaping follows Go's encoder
(with HTML escaping, as `json.Marshal` uses by default): `"`, `\`, `\n`,
`\r`, `\t` short forms, other control characters and `<`, `>`, `&`,
U+2028, U+2029 as `\uXXXX` with lowercase hex. -/

def hexDigit (n : Nat) : Char :=
  if n < 10 then Char.ofNat ('0'.toNat + n) else Char.ofNat ('a'.toNat + (n - 10))

def hex4 (n : Nat) : List Char :=
  [hexDigit (n / 4096 % 16), hexDigit (n / 256 % 16), hexDigit (n / 16 % 16), hexDigit (n % 16)]

def escapeChar (c : Char) : List Char :=
  if c = '"' then ['\\', '"']
  else if c = '\\' then ['\\', '\\']
  else if c = '\n' then ['\\', 'n']
  else if c = '\r' then ['\\', 'r']
  else if c = '\t' then ['\\', 't']
  else if c.toNat < 32 || c = '<' || c = '>' || c = '&' || c.toNat = 8232 || c.toNat = 8233 then
    '\\' :: 'u' :: hex4 c.toNat
  else [c]

def encStr (s : List Char) : List Char :=
  '"' :: (s.map escapeChar).flatten ++ ['"']

def indentC (lvl : Nat) : List Char := List.replicate (2 * lvl) ' '

mutual
def encVal : Nat → Json → List Char
  | _, .null => "null".data
  | _, .bool true => "true".data
  | _, .bool false => "false".data
  | _, .num lit => lit.data
  | _, .str s => encStr s.data
  | _, .arr .nil => ['[', ']']
  | lvl, .arr (.cons x xs) =>
      '[' :: '\n' :: (indentC (lvl + 1) ++ encVal (lvl + 1) x ++ encArrT (lvl + 1) xs
        ++ '\n' :: indentC lvl ++ [']'])
  | _, .obj .nil => ['{', '}']
  | lvl, .obj (.cons k v fs) =>
      '{' :: '\n' :: (indentC (lvl + 1) ++ encStr k.data ++ ':' :: ' ' :: encVal (lvl + 1) v
        ++ encObjT (lvl + 1) fs ++ '\n' :: indentC lvl ++ ['}'])
def encArrT : Nat → JArr → List Char
  | _, .nil => []
  | lvl, .cons x xs => ',' :: '\n' :: (indentC lvl ++ encVal lvl x ++ encArrT lvl xs)
def encObjT : Nat → JObj → List Char
  | _, .nil => []
  | lvl, .cons k v fs =>
      ',' :: '\n' :: (indentC lvl ++ encStr k.data ++ ':' :: ' ' :: encVal lvl v ++ encObjT lvl fs)
end

def encodeIndent (j : Json) : String := ⟨encVal 0 j⟩

/-! ## Parser

Mirrors `encoding/json`'s grammar (the same grammar backs `json.Valid` and
`json.Unmarshal`): optional `[ \t\n\r]` whitespace, `null`/`true`/`false`,
numbers `-?(0|[1-9][0-9]*)(\.[0-9]+)?([eE][+-]?[0-9]+)?` kept as literal
text, strings with the standard escapes, arrays and objects.  A `\uXXXX`
escape in the surrogate range decodes to U+FFFD in this model (Go combines
valid surrogate pairs and replaces invalid ones; the difference only
affects decoded astral characters, not validity).  Container recursion is
fueled; `parseJson` supplies one unit of fuel per input character, which
is sufficient since every recursive call consumes at least one character
first. -/

def isWs (c : Char) : Bool := c = ' ' || c = '\t' || c = '\n' || c = '\r'

def skipWs : List Char → List Char
  | c :: cs => if isWs c then skipWs cs else c :: cs
  | [] => []

def hexVal (c : Char) : Option Nat :=
  if '0' ≤ c ∧ c ≤ '9' then some (c.toNat - '0'.toNat)
  else if 'a' ≤ c ∧ c ≤ 'f' then some (c.toNat - 'a'.toNat + 10)
  else if 'A' ≤ c ∧ c ≤ 'F' then some (c.toNat - 'A'.toNat + 10)
  else none

def escUn (c : Char) : Option Char :=
  if c = '"' then some '"'
  else if c = '\\' then some '\\'
  else if c = '/' then some '/'
  else if c = 'b' then some (Char.ofNat 8)
  else if c = 'f' then some (Char.ofNat 12)
  else if c = 'n' then some '\n'
  else if c = 'r' then some '\r'
  else if c = 't' then some '\t'
  else none

def parseStrBody : List Char → Option (List Char × List Char)
  | [] => none
  | c :: cs =>
    if c = '"' then some ([], cs)
    else if c = '\\' then
      match cs with
      | [] => none
      | e :: cs2 =>
        if e = 'u' then
          match cs2 with
          | h1 :: h2 :: h3 :: h4 :: cs3 => do
              let n1 ← hexVal h1
              let n2 ← hexVal h2
              let n3 ← hexVal h3
              let n4 ← hexVal h4
              let n := n1 * 4096 + n2 * 256 + n3 * 16 + n4
              let d := if 55296 ≤ n ∧ n < 57344 then Char.ofNat 65533 else Char.ofNat n
              let p ← parseStrBody cs3
              pure (d :: p.1, p.2)
          | _ => none
        else do
          let d ← escUn e
          let p ← parseStrBody cs2
          pure (d :: p.1, p.2)
    else if c.toNat < 32 then none
    else do
      let p ← parseStrBody cs
      pure (c :: p.1, p.2)

def takeDigits : List Char → List Char × List Char
  | c :: cs => if c.isDigit then ((takeDigits cs).1.cons c, (takeDigits cs).2) else ([], c :: cs)
  | [] => ([], [])

def parseIntPart : List Char → Option (List Char × List Char)
  | [] => none
  | c :: cs =>
    if c = '0' then some (['0'], cs)
    else if c.isDigit then some ((takeDigits cs).1.cons c, (takeDigits cs).2)
    else none

def parseFracPart : List Char → Option (List Char × List Char)
  | [] => some ([], [])
  | c :: cs =>
    if c = '.' then
      if (takeDigits cs).1 = [] then none else some ('.' :: (takeDigits cs).1, (takeDigits cs).2)
    else some ([], c :: cs)

def parseExpPart : List Char → Option (List Char × List Char)
  | [] => some ([], [])
  | c :: cs =>
    if c = 'e' ∨ c = 'E' then
      match cs with
      | [] => none
      | s :: cs2 =>
        if s = '+' ∨ s = '-' then
          if (takeDigits cs2).1 = [] then none
          else some (c :: s :: (takeDigits cs2).1, (takeDigits cs2).2)
        else if (takeDigits (s :: cs2)).1 = [] then none
        else some (c :: (takeDigits (s :: cs2)).1, (takeDigits (s :: cs2)).2)
    else some ([], c :: cs)

def negSplit : List Char → List Char × List Char
  | [] => ([], [])
  | c :: t => if c = '-' then (['-'], t) else ([], c :: t)

def parseNumber (cs : List Char) : Option (List Char × List Char) := do
  let i ← parseIntPart (negSplit cs).2
  let f ← parseFracPart i.2
  let e ← parseExpPart f.2
  pure ((negSplit cs).1 ++ i.1 ++ f.1 ++ e.1, e.2)

def expectColonWs : List Char → Option (List Char)
  | cs =>
    match skipWs cs with
    | [] => none
    | d :: t => if d = ':' then some (skipWs t) else none

mutual
def parseVal : Nat → List Char → Option (Json × List Char)
  | 0, _ => none
  | fuel + 1, cs =>
    match cs with
    | [] => none
    | c :: r =>
      if c = 'n' then
        match r with
        | 'u' :: 'l' :: 'l' :: t => some (.null, t)
        | _ => none
      else if c = 't' then
        match r with
        | 'r' :: 'u' :: 'e' :: t => some (.bool true, t)
        | _ => none
      else if c = 'f' then
        match r with
        | 'a' :: 'l' :: 's' :: 'e' :: t => some (.bool false, t)
        | _ => none
      else if c = '"' then (parseStrBody r).map (fun p => (.str ⟨p.1⟩, p.2))
      else if c = '[' then
        match skipWs r with
        | [] => none
        | d :: t =>
          if d = ']' then some (.arr .nil, t)
          else do
            let (x, r1) ← parseVal fuel (d :: t)
            let (xs, r2) ← parseArrTail fuel r1
            pure (.arr (.cons x xs), r2)
      else if c = '{' then
        match skipWs r with
        | [] => none
        | d :: t =>
          if d = '}' then some (.obj .nil, t)
          else if d = '"' then do
            let (k, r1) ← parseStrBody t
            let r2 ← expectColonWs r1
            let (v, r3) ← parseVal fuel r2
            let (fs, r4) ← parseObjTail fuel r3
            pure (.obj (.cons ⟨k⟩ v fs), r4)
          else none
      else if c = '-' ∨ c.isDigit then (parseNumber cs).map (fun p => (.num ⟨p.1⟩, p.2))
      else none
def parseArrTail : Nat → List Char → Option (JArr × List Char)
  | 0, _ => none
  | fuel + 1, cs =>
    match skipWs cs with
    | [] => none
    | d :: t =>
      if d = ']' then some (.nil, t)
      else if d = ',' then do
        let (x, r1) ← parseVal fuel (skipWs t)
        let (xs, r2) ← parseArrTail fuel r1
        pure (.cons x xs, r2)
      else none
def parseObjTail : Nat → List Char → Option (JObj × List Char)
  | 0, _ => none
  | fuel + 1, cs =>
    match skipWs cs with
    | [] => none
    | d :: t =>
      if d = '}' then some (.nil, t)
      else if d = ',' then
        match skipWs t with
        | [] => none
        | e :: t2 =>
          if e = '"' then do
            let (k, r1) ← parseStrBody t2
            let r2 ← expectColonWs r1
            let (v, r3) ← parseVal fuel r2
            let (fs, r4) ← parseObjTail fuel r3
            pure (.cons ⟨k⟩ v fs, r4)
          else none
      else none
end

def parseJson (s : String) : Option Json :=
  match parseVal (s.data.length + 1) (skipWs s.data) with
  | some (j, r) => if skipWs r = [] then some j else none
  | none => none

example : parseJson "null" = some .null := by decide
example : parseJson " [1,2]" = some (.arr (.cons (.num "1") (.cons (.num "2") .nil))) := by decide
example : parseJson "\x7b\"k\":1\x7d" = some (.obj (.cons "k" (.num "1") .nil)) := by decide
example : parseJson "\x7b" = none := by decide
example : parseJson "-1.5e+2" = some (.num "-1.5e+2") := by decide
example : parseJson "01" = none := by decide
example : parseJson "\"a\\nb\"" = some (.str "a\nb") := by decide
example : encodeIndent (.arr (.cons (.num "1") (.cons (.num "2") .nil))) = "[\n  1,\n  2\n]" := by
  decide
example : parseJson (encodeIndent (.obj (.cons "k" (.str "<a>") .nil)))
    = some (.obj (.cons "k" (.str "<a>") .nil)) := by decide

/-! ## Parser and encoder lemmas -/

theorem skipWs_cons_not (c : Char) (t : List Char) (h : isWs c = false) :
    skipWs (c :: t) = c :: t := by
  simp [skipWs, h]

theorem skipWs_cons_ws (c : Char) (t : List Char) (h : isWs c = true) :
    skipWs (c :: t) = skipWs t := by
  simp [skipWs, h]

theorem skipWs_indent (lvl : Nat) (t : List Char) :
    skipWs (indentC lvl ++ t) = skipWs t := by
  induction lvl with
  | zero => simp [indentC]
  | succ n ih =>
      have h2 : 2 * (n + 1) = (2 * n) + 1 + 1 := by omega
      simp only [indentC, h2, List.replicate_succ, List.cons_append]
      rw [skipWs_cons_ws _ _ (by decide), skipWs_cons_ws _ _ (by decide)]
      simpa [indentC] using ih

theorem skipWs_nl (t : List Char) : skipWs ('\n' :: t) = skipWs t := by
  rw [skipWs_cons_ws] ; rfl

theorem hexVal_hexDigit (m : Nat) (h : m < 16) : hexVal (hexDigit m) = some m := by
  interval_cases m <;> decide

theorem parseStrBody_escape (c : Char) (rest : List Char) :
    parseStrBody (escapeChar c ++ rest)
      = (parseStrBody rest).map (fun p => (c :: p.1, p.2)) := by
  by_cases hq : c = '"'
  · subst hq
    rw [show escapeChar '"' = ['\\', '"'] from by decide]
    rw [parseStrBody.eq_def]; norm_num [escUn]
    cases parseStrBody rest <;> rfl
  by_cases hb : c = '\\'
  · subst hb
    rw [show escapeChar '\\' = ['\\', '\\'] from by decide]
    rw [parseStrBody.eq_def]; norm_num [escUn]
    cases parseStrBody rest <;> rfl
  by_cases hn : c = '\n'
  · subst hn
    rw [show escapeChar '\n' = ['\\', 'n'] from by decide]
    rw [parseStrBody.eq_def]; norm_num [escUn]
    cases parseStrBody rest <;> rfl
  by_cases hr : c = '\r'
  · subst hr
    rw [show escapeChar '\r' = ['\\', 'r'] from by decide]
    rw [parseStrBody.eq_def]; norm_num [escUn]
    cases parseStrBody rest <;> rfl
  by_cases ht : c = '\t'
  · subst ht
    rw [show escapeChar '\t' = ['\\', 't'] from by decide]
    rw [parseStrBody.eq_def]; norm_num [escUn]
    cases parseStrBody rest <;> rfl
  by_cases hu :
      (c.toNat < 32 || c = '<' || c = '>' || c = '&' || c.toNat = 8232 || c.toNat = 8233) = true
  · rw [show escapeChar c = '\\' :: 'u' :: hex4 c.toNat by
      simp only [escapeChar, hq, hb, hn, hr, ht, hu, if_false, if_true]]
    have hlt : c.toNat < 55296 := by
      simp only [Bool.or_eq_true, decide_eq_true_eq] at hu
      rcases hu with ((((h | h) | h) | h) | h) | h
      · omega
      · subst h; decide
      · subst h; decide
      · subst h; decide
      · omega
      · omega
    have h16 : ∀ m : Nat, m % 16 < 16 := fun m => Nat.mod_lt _ (by norm_num)
    have e1 := hexVal_hexDigit (c.toNat / 4096 % 16) (h16 _)
    have e2 := hexVal_hexDigit (c.toNat / 256 % 16) (h16 _)
    have e3 := hexVal_hexDigit (c.toNat / 16 % 16) (h16 _)
    have e4 := hexVal_hexDigit (c.toNat % 16) (h16 _)
    have hrec : c.toNat / 4096 % 16 * 4096 + c.toNat / 256 % 16 * 256
        + c.toNat / 16 % 16 * 16 + c.toNat % 16 = c.toNat := by omega
    have hcond : ¬ (55296 ≤ c.toNat ∧ c.toNat < 57344) := by omega
    simp only [hex4, List.cons_append]
    rw [parseStrBody.eq_def]
    norm_num [e1, e2, e3, e4]
    rw [hrec, if_neg hcond, Char.ofNat_toNat]
    cases parseStrBody rest <;> rfl
  · rw [show escapeChar c = [c] by simp [escapeChar, hq, hb, hn, hr, ht, hu]]
    have h32 : ¬ c.toNat < 32 := by
      simp only [Bool.or_eq_true, decide_eq_true_eq, not_or] at hu
      exact hu.1.1.1.1.1
    rw [List.singleton_append, parseStrBody.eq_def]
    simp only [if_neg hq, if_neg hb, if_neg h32]
    cases parseStrBody rest <;> rfl

theorem parseStrBody_enc (s rest : List Char) :
    parseStrBody ((s.map escapeChar).flatten ++ '"' :: rest) = some (s, rest) := by
  induction s with
  | nil => rw [List.map_nil, List.flatten_nil, List.nil_append, parseStrBody.eq_def]; simp
  | cons c t ih =>
      simp only [List.map_cons, List.flatten_cons, List.append_assoc]
      rw [parseStrBody_escape, ih]
      rfl

/-- Head-condition on a trailing input: it cannot extend a number literal. -/
def numEdge (c : Char) : Bool :=
  c.isDigit || c = '.' || c = 'e' || c = 'E' || c = '+' || c = '-'

def SafeRest : List Char → Prop
  | [] => True
  | c :: _ => numEdge c = false

def notDigitHead : List Char → Prop
  | [] => True
  | c :: _ => c.isDigit = false

theorem SafeRest.toNotDigit {r : List Char} (h : SafeRest r) : notDigitHead r := by
  cases r with
  | nil => trivial
  | cons c t =>
      simp only [SafeRest, numEdge, Bool.or_eq_false_iff] at h
      exact h.1.1.1.1.1

theorem takeDigits_append (ds rest : List Char) (hds : ∀ c ∈ ds, c.isDigit = true)
    (hr : notDigitHead rest) : takeDigits (ds ++ rest) = (ds, rest) := by
  induction ds with
  | nil =>
      cases rest with
      | nil => rfl
      | cons c t => simp [takeDigits, show c.isDigit = false from hr]
  | cons c t ih =>
      have hc := hds c (by simp)
      simp only [List.cons_append, takeDigits, hc, if_true]
      rw [show (t ++ rest) = t.append rest from rfl] at ih
      rw [ih (fun x hx => hds x (by simp [hx]))]

theorem takeDigits_spec (cs : List Char) :
    cs = (takeDigits cs).1 ++ (takeDigits cs).2 ∧ (∀ c ∈ (takeDigits cs).1, c.isDigit = true) ∧
      notDigitHead (takeDigits cs).2 := by
  induction cs with
  | nil => exact ⟨rfl, by simp [takeDigits], by simp [takeDigits, notDigitHead]⟩
  | cons c t ih =>
      by_cases h : c.isDigit = true
      · simp only [takeDigits, h, if_true]
        refine ⟨by simpa using ih.1, ?_, ih.2.2⟩
        intro x hx
        rcases List.mem_cons.mp hx with h1 | h1
        · subst h1; exact h
        · exact ih.2.1 x h1
      · have h2 : c.isDigit = false := by simpa using h
        simp only [takeDigits, h2, if_false]
        exact ⟨rfl, by simp, by simp [notDigitHead, h2]⟩

theorem parseIntPart_ext (cs ip r : List Char) (h : parseIntPart cs = some (ip, r)) :
    cs = ip ++ r ∧ ip ≠ [] ∧ (∀ c ∈ ip, c.isDigit = true) ∧
      ∀ rest, notDigitHead rest → parseIntPart (ip ++ rest) = some (ip, rest) := by
  cases cs with
  | nil => simp [parseIntPart] at h
  | cons c t =>
      by_cases h0 : c = '0'
      · subst h0
        rw [show parseIntPart ('0' :: t) = some (['0'], t) from by simp [parseIntPart]] at h
        injection h with h1
        injection h1 with hip hr
        subst hip; subst hr
        refine ⟨rfl, by simp, by simp, fun rest _ => by simp [parseIntPart]⟩
      · by_cases hd : c.isDigit = true
        · rw [show parseIntPart (c :: t)
              = some ((takeDigits t).1.cons c, (takeDigits t).2) from by
            simp [parseIntPart, h0, hd]] at h
          injection h with h1
          injection h1 with hip hr
          obtain ⟨hsplit, hds, hnd⟩ := takeDigits_spec t
          subst hr
          refine ⟨?_, ?_, ?_, ?_⟩
          · rw [← hip]; simpa using hsplit
          · rw [← hip]; simp
          · rw [← hip]
            intro x hx
            rcases List.mem_cons.mp hx with h1 | h1
            · subst h1; exact hd
            · exact hds x h1
          · intro rest hrest
            rw [← hip]
            simp only [List.cons_append, parseIntPart, if_neg h0, hd, if_true]
            rw [takeDigits_append _ _ hds hrest]
        · have hd2 : c.isDigit = false := by simpa using hd
          simp [parseIntPart, if_neg h0, hd2] at h

theorem parseFracPart_ext (cs fp r : List Char) (h : parseFracPart cs = some (fp, r)) :
    cs = fp ++ r ∧ (∀ x t, fp = x :: t → x = '.') ∧
      ∀ rest, notDigitHead rest → (∀ x t, rest = x :: t → x ≠ '.') →
        parseFracPart (fp ++ rest) = some (fp, rest) := by
  cases cs with
  | nil =>
      rw [show parseFracPart [] = some ([], []) from rfl] at h
      injection h with h1
      injection h1 with hfp hr
      subst hfp; subst hr
      refine ⟨rfl, by simp, fun rest hrest hdot => ?_⟩
      cases rest with
      | nil => rfl
      | cons x t => simp only [List.nil_append, parseFracPart, if_neg (hdot x t rfl)]
  | cons c t =>
      by_cases hdot : c = '.'
      · subst hdot
        by_cases hemp : (takeDigits t).1 = []
        · simp [parseFracPart, hemp] at h
        · rw [show parseFracPart ('.' :: t)
              = some ('.' :: (takeDigits t).1, (takeDigits t).2) from by
            simp [parseFracPart, hemp]] at h
          injection h with h1
          injection h1 with hfp hr
          obtain ⟨hsplit, hds, _⟩ := takeDigits_spec t
          subst hr
          refine ⟨?_, ?_, ?_⟩
          · rw [← hfp]; simpa using hsplit
          · rw [← hfp]
            intro x t2 hxt
            injection hxt with hx _
            exact hx.symm
          · intro rest hrest _
            rw [← hfp]
            simp only [List.cons_append, parseFracPart]
            rw [takeDigits_append _ _ hds hrest]
            simp [hemp]
      · rw [show parseFracPart (c :: t) = some ([], c :: t) from by
          simp [parseFracPart, hdot]] at h
        injection h with h1
        injection h1 with hfp hr
        subst hr
        have hfp2 : fp = [] := hfp.symm
        subst hfp2
        refine ⟨rfl, by simp, fun rest hrest hdot2 => ?_⟩
        cases rest with
        | nil => rfl
        | cons x t2 => simp only [List.nil_append, parseFracPart, if_neg (hdot2 x t2 rfl)]

theorem parseExpPart_ext (cs ep r : List Char) (h : parseExpPart cs = some (ep, r)) :
    cs = ep ++ r ∧ (∀ x t, ep = x :: t → x = 'e' ∨ x = 'E') ∧
      ∀ rest, notDigitHead rest → (∀ x t, rest = x :: t → x ≠ 'e' ∧ x ≠ 'E') →
        parseExpPart (ep ++ rest) = some (ep, rest) := by
  cases cs with
  | nil =>
      rw [show parseExpPart [] = some ([], []) from rfl] at h
      injection h with h1
      injection h1 with hep hr
      subst hep; subst hr
      refine ⟨rfl, by simp, fun rest hrest he => ?_⟩
      cases rest with
      | nil => rfl
      | cons x t =>
          have hx := he x t rfl
          have hne : ¬ (x = 'e' ∨ x = 'E') := by tauto
          simp only [List.nil_append, parseExpPart, if_neg hne]
  | cons c t =>
      by_cases he : c = 'e' ∨ c = 'E'
      · cases t with
        | nil => simp [parseExpPart, he] at h
        | cons s cs2 =>
            by_cases hs : s = '+' ∨ s = '-'
            · by_cases hemp : (takeDigits cs2).1 = []
              · simp [parseExpPart, he, hs, hemp] at h
              · rw [show parseExpPart (c :: s :: cs2)
                    = some (c :: s :: (takeDigits cs2).1, (takeDigits cs2).2) from by
                  simp [parseExpPart, he, hs, hemp]] at h
                injection h with h1
                injection h1 with hep hr
                obtain ⟨hsplit, hds, _⟩ := takeDigits_spec cs2
                subst hr
                refine ⟨?_, ?_, ?_⟩
                · rw [← hep]; simpa using hsplit
                · rw [← hep]
                  intro x t2 hxt
                  injection hxt with hx _
                  subst hx; exact he
                · intro rest hrest _
                  rw [← hep]
                  simp only [List.cons_append, parseExpPart, if_pos he, if_pos hs]
                  rw [takeDigits_append _ _ hds hrest]
                  simp [hemp]
            · by_cases hemp : (takeDigits (s :: cs2)).1 = []
              · simp [parseExpPart, he, hs, hemp] at h
              · rw [show parseExpPart (c :: s :: cs2)
                    = some (c :: (takeDigits (s :: cs2)).1, (takeDigits (s :: cs2)).2) from by
                  simp [parseExpPart, he, hs, hemp]] at h
                injection h with h1
                injection h1 with hep hr
                obtain ⟨hsplit, hds, _⟩ := takeDigits_spec (s :: cs2)
                subst hr
                refine ⟨?_, ?_, ?_⟩
                · rw [← hep]; simpa using hsplit
                · rw [← hep]
                  intro x t2 hxt
                  injection hxt with hx _
                  subst hx; exact he
                · intro rest hrest _
                  rw [← hep]
                  obtain ⟨d, ds, hds1⟩ := List.exists_cons_of_ne_nil hemp
                  have hd : d.isDigit = true := hds d (by rw [hds1]; simp)
                  have hdplus : ¬ (d = '+' ∨ d = '-') := by
                    rintro (h1 | h1) <;> (subst h1; simp [Char.isDigit] at hd)
                  have htd := takeDigits_append _ _ hds hrest
                  rw [hds1] at htd
                  simp only [List.cons_append] at htd ⊢
                  rw [hds1]
                  simp only [List.cons_append, parseExpPart, if_pos he, if_neg hdplus, htd]
                  simp [← hds1, hemp]
      · rw [show parseExpPart (c :: t) = some ([], c :: t) from by
          simp [parseExpPart, he]] at h
        injection h with h1
        injection h1 with hep hr
        subst hr
        have hep2 : ep = [] := hep.symm
        subst hep2
        refine ⟨rfl, by simp, fun rest hrest he2 => ?_⟩
        cases rest with
        | nil => rfl
        | cons x t2 =>
            have hx := he2 x t2 rfl
            have hne : ¬ (x = 'e' ∨ x = 'E') := by tauto
            simp only [List.nil_append, parseExpPart, if_neg hne]

theorem SafeRest.headProps {x : Char} {t : List Char} (h : SafeRest (x :: t)) :
    x.isDigit = false ∧ x ≠ '.' ∧ x ≠ 'e' ∧ x ≠ 'E' ∧ x ≠ '+' ∧ x ≠ '-' := by
  simp only [SafeRest, numEdge, Bool.or_eq_false_iff, decide_eq_false_iff_not] at h
  tauto

theorem digit_ne_minus {d : Char} (hd : d.isDigit = true) : d ≠ '-' := by
  intro h; subst h; simp [Char.isDigit] at hd

theorem parseNumber_ext (cs lit r : List Char) (h : parseNumber cs = some (lit, r)) :
    cs = lit ++ r ∧ (∃ c t, lit = c :: t ∧ (c = '-' ∨ c.isDigit = true)) ∧
      ∀ rest, SafeRest rest → parseNumber (lit ++ rest) = some (lit, rest) := by
  simp only [parseNumber, Option.bind_eq_bind] at h
  rcases hI : parseIntPart (negSplit cs).2 with _ | ⟨ip, cs2⟩
  · rw [hI] at h; simp at h
  rw [hI, Option.some_bind] at h
  rcases hF : parseFracPart cs2 with _ | ⟨fp, cs3⟩
  · rw [hF] at h; simp at h
  rw [hF, Option.some_bind] at h
  rcases hE : parseExpPart cs3 with _ | ⟨ep, cs4⟩
  · rw [hE] at h; simp at h
  rw [hE, Option.some_bind] at h
  injection h with h1
  injection h1 with hlit hr
  subst hr
  obtain ⟨hIs, hIne, hIds, hIext⟩ := parseIntPart_ext _ _ _ hI
  obtain ⟨hFs, hFhd, hFext⟩ := parseFracPart_ext _ _ _ hF
  obtain ⟨hEs, hEhd, hEext⟩ := parseExpPart_ext _ _ _ hE
  obtain ⟨d, ds, hds1⟩ := List.exists_cons_of_ne_nil hIne
  have hddig : d.isDigit = true := hIds d (by rw [hds1]; simp)
  have hcs : cs = (negSplit cs).1 ++ (negSplit cs).2 := by
    cases cs with
    | nil => rfl
    | cons c t =>
        by_cases hc : c = '-'
        · subst hc; simp [negSplit]
        · simp [negSplit, hc]
  have hneg : (negSplit cs).1 = [] ∨ (negSplit cs).1 = ['-'] := by
    cases cs with
    | nil => exact Or.inl rfl
    | cons c t =>
        by_cases hc : c = '-'
        · subst hc; right; simp [negSplit]
        · left; simp [negSplit, hc]
  refine ⟨?_, ?_, ?_⟩
  · rw [hcs, ← hlit]
    simp only [List.append_assoc]
    rw [← hEs, ← hFs, ← hIs]
  · rcases hneg with hn | hn
    · refine ⟨d, ds ++ fp ++ ep, ?_, Or.inr hddig⟩
      rw [← hlit, hn, hds1]; simp
    · refine ⟨'-', ip ++ fp ++ ep, ?_, Or.inl rfl⟩
      rw [← hlit, hn]; simp
  · intro rest hrest
    have hndF : notDigitHead (fp ++ (ep ++ rest)) := by
      cases fp with
      | nil =>
          cases ep with
          | nil => exact hrest.toNotDigit
          | cons x u =>
              rcases hEhd x u rfl with hx | hx <;> (subst hx; simp [notDigitHead])
      | cons x u =>
          have := hFhd x u rfl; subst this; simp [notDigitHead]
    have hndE : notDigitHead (ep ++ rest) := by
      cases ep with
      | nil => exact hrest.toNotDigit
      | cons x u =>
          rcases hEhd x u rfl with hx | hx <;> (subst hx; simp [notDigitHead])
    have hdotE : ∀ x u, (ep ++ rest) = x :: u → x ≠ '.' := by
      cases ep with
      | nil =>
          intro x u hx
          cases rest with
          | nil => simp at hx
          | cons y v =>
              injection hx with h1 _
              subst h1
              exact (SafeRest.headProps hrest).2.1
      | cons z w =>
          intro x u hx
          injection hx with h1 _
          subst h1
          rcases hEhd z w rfl with hz | hz <;> (subst hz; decide)
    have heE : ∀ x u, rest = x :: u → x ≠ 'e' ∧ x ≠ 'E' := by
      intro x u hx
      subst hx
      exact ⟨(SafeRest.headProps hrest).2.2.1, (SafeRest.headProps hrest).2.2.2.1⟩
    have hlit2 : lit = (negSplit cs).1 ++ (ip ++ (fp ++ ep)) := by
      rw [← hlit]; simp
    have hnsplit : negSplit (lit ++ rest)
        = ((negSplit cs).1, ip ++ (fp ++ (ep ++ rest))) := by
      rw [hlit2]
      rcases hneg with hn | hn
      · rw [hn, List.nil_append, hds1]
        simp only [List.cons_append, negSplit]
        rw [if_neg (digit_ne_minus hddig)]
        simp
      · rw [hn]
        simp only [List.cons_append, List.nil_append, negSplit, if_pos rfl]
        simp
    simp only [parseNumber, Option.bind_eq_bind, hnsplit]
    rw [hIext _ hndF, Option.some_bind]
    rw [hFext _ hndE hdotE, Option.some_bind]
    rw [hEext _ hrest.toNotDigit heE, Option.some_bind]
    rw [hlit2]
    simp

/-! ## Well-formed trees and the parse/encode round trip

Every tree produced by the parser is well formed (`wfV`); the only
constraint is that number literals are exactly the number grammar (which
the parser guarantees, and which `json.RawMessage` compaction preserves).
-/

mutual
def wfV : Json → Bool
  | .null => true
  | .bool _ => true
  | .str _ => true
  | .num lit => decide (parseNumber lit.data = some (lit.data, []))
  | .arr xs => wfA xs
  | .obj fs => wfO fs
def wfA : JArr → Bool
  | .nil => true
  | .cons x xs => wfV x && wfA xs
def wfO : JObj → Bool
  | .nil => true
  | .cons _ v fs => wfV v && wfO fs
end

mutual
def fsizeV : Json → Nat
  | .arr xs => 1 + fsizeA xs
  | .obj fs => 1 + fsizeO fs
  | _ => 1
def fsizeA : JArr → Nat
  | .nil => 1
  | .cons x xs => 1 + max (fsizeV x) (fsizeA xs)
def fsizeO : JObj → Nat
  | .nil => 1
  | .cons _ v fs => 1 + max (fsizeV v) (fsizeO fs)
end

theorem ne_of_toNat_ne {c d : Char} (h : c.toNat ≠ d.toNat) : c ≠ d :=
  fun he => h (he ▸ rfl)

theorem isDigit_toNat {d : Char} (h : d.isDigit = true) : 48 ≤ d.toNat ∧ d.toNat ≤ 57 := by
  simpa [Char.isDigit] using h

theorem ne_char_of_bounds {c d : Char} (hlo : 45 ≤ c.toNat) (hhi : c.toNat ≤ 57)
    (hd : d.toNat < 45 ∨ 57 < d.toNat) : c ≠ d := by
  refine ne_of_toNat_ne ?_
  omega

/-- Facts about the first character of an encoded number literal. -/
theorem numHead_facts {c : Char} (h : c = '-' ∨ c.isDigit = true) :
    c ≠ 'n' ∧ c ≠ 't' ∧ c ≠ 'f' ∧ c ≠ '"' ∧ c ≠ '[' ∧ c ≠ '\x7b' ∧ isWs c = false ∧
      c ≠ ']' ∧ c ≠ '\x7d' := by
  have hn : 45 ≤ c.toNat ∧ c.toNat ≤ 57 := by
    rcases h with h | h
    · subst h; decide
    · have := isDigit_toNat h; omega
  have hws : isWs c = false := by
    have h1 : c ≠ ' ' := ne_char_of_bounds hn.1 hn.2 (by decide)
    have h2 : c ≠ '\t' := ne_char_of_bounds hn.1 hn.2 (by decide)
    have h3 : c ≠ '\n' := ne_char_of_bounds hn.1 hn.2 (by decide)
    have h4 : c ≠ '\r' := ne_char_of_bounds hn.1 hn.2 (by decide)
    simp [isWs, h1, h2, h3, h4]
  exact ⟨ne_char_of_bounds hn.1 hn.2 (by decide), ne_char_of_bounds hn.1 hn.2 (by decide),
    ne_char_of_bounds hn.1 hn.2 (by decide), ne_char_of_bounds hn.1 hn.2 (by decide),
    ne_char_of_bounds hn.1 hn.2 (by decide), ne_char_of_bounds hn.1 hn.2 (by decide),
    hws, ne_char_of_bounds hn.1 hn.2 (by decide), ne_char_of_bounds hn.1 hn.2 (by decide)⟩

/-- The first character of an encoded value: never whitespace and never a
closing bracket, so surrounding whitespace-skipping and closing-bracket
dispatch in the parser cannot swallow it. -/
theorem encVal_head (lvl : Nat) (j : Json) (hw : wfV j = true) :
    ∃ c t, encVal lvl j = c :: t ∧ isWs c = false ∧ c ≠ ']' ∧ c ≠ '\x7d' := by
  cases j with
  | null => refine ⟨'n', _, rfl, ?_, ?_, ?_⟩ <;> decide
  | bool b => cases b with
      | true => refine ⟨'t', _, rfl, ?_, ?_, ?_⟩ <;> decide
      | false => refine ⟨'f', _, rfl, ?_, ?_, ?_⟩ <;> decide
  | num lit =>
      have hp : parseNumber lit.data = some (lit.data, []) := by
        simpa [wfV] using hw
      obtain ⟨-, ⟨c, t, hlit, hcd⟩, -⟩ := parseNumber_ext _ _ _ hp
      obtain ⟨-, -, -, -, -, -, hws, hbr, hbc⟩ := numHead_facts hcd
      exact ⟨c, t, by simp [encVal, hlit], hws, hbr, hbc⟩
  | str s => refine ⟨'"', _, rfl, ?_, ?_, ?_⟩ <;> decide
  | arr xs => cases xs with
      | nil => refine ⟨'[', _, rfl, ?_, ?_, ?_⟩ <;> decide
      | cons x xs2 => refine ⟨'[', _, rfl, ?_, ?_, ?_⟩ <;> decide
  | obj fs => cases fs with
      | nil => refine ⟨'\x7b', _, rfl, ?_, ?_, ?_⟩ <;> decide
      | cons k v fs2 => refine ⟨'\x7b', _, rfl, ?_, ?_, ?_⟩ <;> decide


theorem safeRest_comma (t : List Char) : SafeRest (',' :: t) := by
  show numEdge ',' = false
  decide

theorem safeRest_nl (t : List Char) : SafeRest ('\n' :: t) := by
  show numEdge '\n' = false
  decide

theorem skipWs_to_enc (lvl lvl2 : Nat) (j : Json) (hw : wfV j = true) (R : List Char) :
    skipWs ('\n' :: (indentC lvl ++ (encVal lvl2 j ++ R))) = encVal lvl2 j ++ R := by
  rw [skipWs_nl, skipWs_indent]
  obtain ⟨c, t, he, hws, -, -⟩ := encVal_head lvl2 j hw
  rw [he, List.cons_append, skipWs_cons_not _ _ hws]

theorem parseVal_quote (f : Nat) (r : List Char) :
    parseVal (f + 1) ('"' :: r)
      = (parseStrBody r).map (fun p => (Json.str ⟨p.1⟩, p.2)) := by
  simp [parseVal]

theorem parseVal_lbrack_close (f : Nat) (r t : List Char) (hsk : skipWs r = ']' :: t) :
    parseVal (f + 1) ('[' :: r) = some (Json.arr .nil, t) := by
  simp only [parseVal]
  rw [hsk]
  simp

theorem parseVal_lbrack_elem (f : Nat) (r t : List Char) (d : Char)
    (hsk : skipWs r = d :: t) (hd : d ≠ ']') :
    parseVal (f + 1) ('[' :: r)
      = (parseVal f (d :: t)).bind (fun p1 =>
          (parseArrTail f p1.2).bind (fun p2 =>
            some (Json.arr (.cons p1.1 p2.1), p2.2))) := by
  simp only [parseVal]
  rw [hsk]
  simp [hd]

theorem parseVal_lbrace_close (f : Nat) (r t : List Char) (hsk : skipWs r = '\x7d' :: t) :
    parseVal (f + 1) ('\x7b' :: r) = some (Json.obj .nil, t) := by
  simp only [parseVal]
  rw [hsk]
  simp

theorem parseVal_lbrace_field (f : Nat) (r t : List Char) (hsk : skipWs r = '"' :: t) :
    parseVal (f + 1) ('\x7b' :: r)
      = (parseStrBody t).bind (fun pk =>
          (expectColonWs pk.2).bind (fun r2 =>
            (parseVal f r2).bind (fun pv =>
              (parseObjTail f pv.2).bind (fun pf =>
                some (Json.obj (.cons ⟨pk.1⟩ pv.1 pf.1), pf.2))))) := by
  simp only [parseVal]
  rw [hsk]
  simp

theorem parseArrTail_close (f : Nat) (cs t : List Char) (hsk : skipWs cs = ']' :: t) :
    parseArrTail (f + 1) cs = some (.nil, t) := by
  simp only [parseArrTail]
  rw [hsk]
  simp

theorem parseArrTail_comma (f : Nat) (cs t : List Char) (hsk : skipWs cs = ',' :: t) :
    parseArrTail (f + 1) cs
      = (parseVal f (skipWs t)).bind (fun p1 =>
          (parseArrTail f p1.2).bind (fun p2 =>
            some (JArr.cons p1.1 p2.1, p2.2))) := by
  simp only [parseArrTail]
  rw [hsk]
  simp

theorem parseObjTail_close (f : Nat) (cs t : List Char) (hsk : skipWs cs = '\x7d' :: t) :
    parseObjTail (f + 1) cs = some (.nil, t) := by
  simp only [parseObjTail]
  rw [hsk]
  simp

theorem parseObjTail_comma (f : Nat) (cs t t2 : List Char) (hsk : skipWs cs = ',' :: t)
    (hsk2 : skipWs t = '"' :: t2) :
    parseObjTail (f + 1) cs
      = (parseStrBody t2).bind (fun pk =>
          (expectColonWs pk.2).bind (fun r2 =>
            (parseVal f r2).bind (fun pv =>
              (parseObjTail f pv.2).bind (fun pf =>
                some (JObj.cons ⟨pk.1⟩ pv.1 pf.1, pf.2))))) := by
  simp only [parseObjTail]
  rw [hsk]
  simp only [reduceCtorEq]
  simp
  rw [hsk2]
  simp

theorem expectColonWs_enc (lvl : Nat) (v : Json) (hw : wfV v = true) (R : List Char) :
    expectColonWs (':' :: ' ' :: (encVal lvl v ++ R)) = some (encVal lvl v ++ R) := by
  obtain ⟨c, t, he, hws, -, -⟩ := encVal_head lvl v hw
  rw [expectColonWs, skipWs_cons_not ':' _ (by decide)]
  simp
  rw [skipWs_cons_ws ' ' _ (by decide), he, List.cons_append, skipWs_cons_not c _ hws]

mutual
theorem parseVal_enc : ∀ (j : Json) (lvl : Nat) (rest : List Char) (fuel : Nat),
    wfV j = true → fsizeV j ≤ fuel → SafeRest rest →
    parseVal fuel (encVal lvl j ++ rest) = some (j, rest)
  | .null, lvl, rest, fuel, hw, hf, hs => by
      cases fuel with
      | zero => simp [fsizeV] at hf
      | succ f =>
          rw [show encVal lvl .null = ['n', 'u', 'l', 'l'] from rfl]
          simp [parseVal]
  | .bool true, lvl, rest, fuel, hw, hf, hs => by
      cases fuel with
      | zero => simp [fsizeV] at hf
      | succ f =>
          rw [show encVal lvl (.bool true) = ['t', 'r', 'u', 'e'] from rfl]
          simp [parseVal]
  | .bool false, lvl, rest, fuel, hw, hf, hs => by
      cases fuel with
      | zero => simp [fsizeV] at hf
      | succ f =>
          rw [show encVal lvl (.bool false) = ['f', 'a', 'l', 's', 'e'] from rfl]
          simp [parseVal]
  | .num lit, lvl, rest, fuel, hw, hf, hs => by
      cases fuel with
      | zero => simp [fsizeV] at hf
      | succ f =>
          have hp : parseNumber lit.data = some (lit.data, []) := by
            simpa [wfV] using hw
          obtain ⟨-, ⟨c, t, hlit, hcd⟩, hext⟩ := parseNumber_ext _ _ _ hp
          obtain ⟨hn, ht, hfc, hq, hbk, hbc, -, -, -⟩ := numHead_facts hcd
          rw [show encVal lvl (.num lit) = lit.data from rfl, hlit]
          rw [List.cons_append]
          simp only [parseVal]
          rw [if_neg hn, if_neg ht, if_neg hfc, if_neg hq, if_neg hbk, if_neg hbc,
            if_pos hcd]
          rw [show c :: (t ++ rest) = (c :: t) ++ rest from rfl, ← hlit]
          rw [hext rest hs]
          rfl
  | .str s, lvl, rest, fuel, hw, hf, hs => by
      cases fuel with
      | zero => simp [fsizeV] at hf
      | succ f =>
          rw [show encVal lvl (.str s) ++ rest
            = '"' :: ((s.data.map escapeChar).flatten ++ '"' :: rest) from by
              simp [encVal, encStr]]
          rw [parseVal_quote, parseStrBody_enc]
          rfl
  | .arr .nil, lvl, rest, fuel, hw, hf, hs => by
      cases fuel with
      | zero => simp [fsizeV, fsizeA] at hf
      | succ f =>
          rw [show encVal lvl (.arr .nil) ++ rest = '[' :: (']' :: rest) from rfl]
          exact parseVal_lbrack_close f _ _ (by rw [skipWs_cons_not ']' _ (by decide)])
  | .arr (.cons x xs), lvl, rest, fuel, hw, hf, hs => by
      cases fuel with
      | zero => simp [fsizeV, fsizeA] at hf
      | succ f =>
          have hw2 : wfV x = true ∧ wfA xs = true := by
            have := hw; simp [wfV, wfA] at this; exact this
          have hfx : fsizeV x ≤ f := by
            simp only [fsizeV, fsizeA] at hf; omega
          have hfxs : fsizeA xs ≤ f := by
            simp only [fsizeV, fsizeA] at hf; omega
          have hR1 : SafeRest (encArrT (lvl + 1) xs ++ '\n' :: (indentC lvl ++ ']' :: rest)) := by
            cases xs with
            | nil => exact safeRest_nl _
            | cons y ys =>
                rw [show encArrT (lvl + 1) (.cons y ys)
                  = ',' :: '\n' :: (indentC (lvl + 1) ++ encVal (lvl + 1) y
                      ++ encArrT (lvl + 1) ys) from rfl]
                exact safeRest_comma _
          obtain ⟨c, t, he, hws, hbr, hbc⟩ := encVal_head (lvl + 1) x hw2.1
          rw [show encVal lvl (.arr (.cons x xs)) ++ rest
            = '[' :: ('\n' :: (indentC (lvl + 1) ++ (encVal (lvl + 1) x
                ++ (encArrT (lvl + 1) xs ++ '\n' :: (indentC lvl ++ ']' :: rest))))) from by
              rw [show encVal lvl (.arr (.cons x xs))
                = '[' :: '\n' :: (indentC (lvl + 1) ++ encVal (lvl + 1) x
                    ++ encArrT (lvl + 1) xs ++ '\n' :: indentC lvl ++ [']']) from rfl]
              simp]
          have hsk : skipWs ('\n' :: (indentC (lvl + 1) ++ (encVal (lvl + 1) x
              ++ (encArrT (lvl + 1) xs ++ '\n' :: (indentC lvl ++ ']' :: rest)))))
              = c :: (t ++ (encArrT (lvl + 1) xs ++ '\n' :: (indentC lvl ++ ']' :: rest))) := by
            rw [skipWs_to_enc (lvl + 1) (lvl + 1) x hw2.1, he, List.cons_append]
          rw [parseVal_lbrack_elem f _ _ c hsk hbr]
          rw [show c :: (t ++ (encArrT (lvl + 1) xs ++ '\n' :: (indentC lvl ++ ']' :: rest)))
            = encVal (lvl + 1) x ++ (encArrT (lvl + 1) xs
                ++ '\n' :: (indentC lvl ++ ']' :: rest)) from by rw [he, List.cons_append]]
          rw [parseVal_enc x (lvl + 1) _ f hw2.1 hfx hR1, Option.some_bind]
          rw [parseArrTail_enc xs lvl rest f hw2.2 hfxs, Option.some_bind]
  | .obj .nil, lvl, rest, fuel, hw, hf, hs => by
      cases fuel with
      | zero => simp [fsizeV, fsizeO] at hf
      | succ f =>
          rw [show encVal lvl (.obj .nil) ++ rest = '\x7b' :: ('\x7d' :: rest) from rfl]
          exact parseVal_lbrace_close f _ _ (by rw [skipWs_cons_not '\x7d' _ (by decide)])
  | .obj (.cons k v fs), lvl, rest, fuel, hw, hf, hs => by
      cases fuel with
      | zero => simp [fsizeV, fsizeO] at hf
      | succ f =>
          have hw2 : wfV v = true ∧ wfO fs = true := by
            have := hw; simp [wfV, wfO] at this; exact this
          have hfv : fsizeV v ≤ f := by
            simp only [fsizeV, fsizeO] at hf; omega
          have hffs : fsizeO fs ≤ f := by
            simp only [fsizeV, fsizeO] at hf; omega
          have hR1 : SafeRest (encObjT (lvl + 1) fs
              ++ '\n' :: (indentC lvl ++ '\x7d' :: rest)) := by
            cases fs with
            | nil => exact safeRest_nl _
            | cons k2 v2 fs2 =>
                rw [show encObjT (lvl + 1) (.cons k2 v2 fs2)
                  = ',' :: '\n' :: (indentC (lvl + 1)
                      ++ encStr k2.data ++ ':' :: ' ' :: encVal (lvl + 1) v2
                      ++ encObjT (lvl + 1) fs2) from rfl]
                exact safeRest_comma _
          rw [show encVal lvl (.obj (.cons k v fs)) ++ rest
            = '\x7b' :: ('\n' :: (indentC (lvl + 1)
                ++ ('"' :: ((k.data.map escapeChar).flatten
                  ++ '"' :: (':' :: ' ' :: (encVal (lvl + 1) v
                    ++ (encObjT (lvl + 1) fs
                      ++ '\n' :: (indentC lvl ++ '\x7d' :: rest)))))))) from by
              rw [show encVal lvl (.obj (.cons k v fs))
                = '\x7b' :: '\n' :: (indentC (lvl + 1) ++ encStr k.data
                    ++ ':' :: ' ' :: encVal (lvl + 1) v
                    ++ encObjT (lvl + 1) fs ++ '\n' :: indentC lvl ++ ['\x7d']) from rfl]
              simp [encStr]]
          have hsk : skipWs ('\n' :: (indentC (lvl + 1)
              ++ ('"' :: ((k.data.map escapeChar).flatten
                ++ '"' :: (':' :: ' ' :: (encVal (lvl + 1) v
                  ++ (encObjT (lvl + 1) fs
                    ++ '\n' :: (indentC lvl ++ '\x7d' :: rest))))))))
              = '"' :: ((k.data.map escapeChar).flatten
                ++ '"' :: (':' :: ' ' :: (encVal (lvl + 1) v
                  ++ (encObjT (lvl + 1) fs
                    ++ '\n' :: (indentC lvl ++ '\x7d' :: rest))))) := by
            rw [skipWs_nl, skipWs_indent, skipWs_cons_not '"' _ (by decide)]
          rw [parseVal_lbrace_field f _ _ hsk]
          rw [parseStrBody_enc, Option.some_bind]
          rw [expectColonWs_enc (lvl + 1) v hw2.1, Option.some_bind]
          rw [parseVal_enc v (lvl + 1) _ f hw2.1 hfv hR1, Option.some_bind]
          rw [parseObjTail_enc fs lvl rest f hw2.2 hffs, Option.some_bind]
theorem parseArrTail_enc : ∀ (xs : JArr) (lvl : Nat) (rest : List Char) (fuel : Nat),
    wfA xs = true → fsizeA xs ≤ fuel →
    parseArrTail fuel (encArrT (lvl + 1) xs ++ '\n' :: (indentC lvl ++ ']' :: rest))
      = some (xs, rest)
  | .nil, lvl, rest, fuel, hw, hf => by
      cases fuel with
      | zero => simp [fsizeA] at hf
      | succ f =>
          rw [show encArrT (lvl + 1) .nil ++ '\n' :: (indentC lvl ++ ']' :: rest)
            = '\n' :: (indentC lvl ++ ']' :: rest) from rfl]
          exact parseArrTail_close f _ _ (by
            rw [skipWs_nl, skipWs_indent, skipWs_cons_not ']' _ (by decide)])
  | .cons x xs, lvl, rest, fuel, hw, hf => by
      cases fuel with
      | zero => simp [fsizeA] at hf
      | succ f =>
          have hw2 : wfV x = true ∧ wfA xs = true := by
            have := hw; simp [wfA] at this; exact this
          have hfx : fsizeV x ≤ f := by
            simp only [fsizeA] at hf; omega
          have hfxs : fsizeA xs ≤ f := by
            simp only [fsizeA] at hf; omega
          have hR1 : SafeRest (encArrT (lvl + 1) xs ++ '\n' :: (indentC lvl ++ ']' :: rest)) := by
            cases xs with
            | nil => exact safeRest_nl _
            | cons y ys =>
                rw [show encArrT (lvl + 1) (.cons y ys)
                  = ',' :: '\n' :: (indentC (lvl + 1) ++ encVal (lvl + 1) y
                      ++ encArrT (lvl + 1) ys) from rfl]
                exact safeRest_comma _
          rw [show encArrT (lvl + 1) (.cons x xs) ++ '\n' :: (indentC lvl ++ ']' :: rest)
            = ',' :: ('\n' :: (indentC (lvl + 1) ++ (encVal (lvl + 1) x
                ++ (encArrT (lvl + 1) xs ++ '\n' :: (indentC lvl ++ ']' :: rest))))) from by
              rw [show encArrT (lvl + 1) (.cons x xs)
                = ',' :: '\n' :: (indentC (lvl + 1) ++ encVal (lvl + 1) x
                    ++ encArrT (lvl + 1) xs) from rfl]
              simp]
          rw [parseArrTail_comma f _ _ (by rw [skipWs_cons_not ',' _ (by decide)])]
          rw [skipWs_to_enc (lvl + 1) (lvl + 1) x hw2.1]
          rw [parseVal_enc x (lvl + 1) _ f hw2.1 hfx hR1, Option.some_bind]
          rw [parseArrTail_enc xs lvl rest f hw2.2 hfxs, Option.some_bind]
theorem parseObjTail_enc : ∀ (fs : JObj) (lvl : Nat) (rest : List Char) (fuel : Nat),
    wfO fs = true → fsizeO fs ≤ fuel →
    parseObjTail fuel (encObjT (lvl + 1) fs ++ '\n' :: (indentC lvl ++ '\x7d' :: rest))
      = some (fs, rest)
  | .nil, lvl, rest, fuel, hw, hf => by
      cases fuel with
      | zero => simp [fsizeO] at hf
      | succ f =>
          rw [show encObjT (lvl + 1) .nil ++ '\n' :: (indentC lvl ++ '\x7d' :: rest)
            = '\n' :: (indentC lvl ++ '\x7d' :: rest) from rfl]
          exact parseObjTail_close f _ _ (by
            rw [skipWs_nl, skipWs_indent, skipWs_cons_not '\x7d' _ (by decide)])
  | .cons k v fs, lvl, rest, fuel, hw, hf => by
      cases fuel with
      | zero => simp [fsizeO] at hf
      | succ f =>
          have hw2 : wfV v = true ∧ wfO fs = true := by
            have := hw; simp [wfO] at this; exact this
          have hfv : fsizeV v ≤ f := by
            simp only [fsizeO] at hf; omega
          have hffs : fsizeO fs ≤ f := by
            simp only [fsizeO] at hf; omega
          have hR1 : SafeRest (encObjT (lvl + 1) fs
              ++ '\n' :: (indentC lvl ++ '\x7d' :: rest)) := by
            cases fs with
            | nil => exact safeRest_nl _
            | cons k2 v2 fs2 =>
                rw [show encObjT (lvl + 1) (.cons k2 v2 fs2)
                  = ',' :: '\n' :: (indentC (lvl + 1)
                      ++ encStr k2.data ++ ':' :: ' ' :: encVal (lvl + 1) v2
                      ++ encObjT (lvl + 1) fs2) from rfl]
                exact safeRest_comma _
          rw [show encObjT (lvl + 1) (.cons k v fs) ++ '\n' :: (indentC lvl ++ '\x7d' :: rest)
            = ',' :: ('\n' :: (indentC (lvl + 1)
                ++ ('"' :: ((k.data.map escapeChar).flatten
                  ++ '"' :: (':' :: ' ' :: (encVal (lvl + 1) v
                    ++ (encObjT (lvl + 1) fs
                      ++ '\n' :: (indentC lvl ++ '\x7d' :: rest)))))))) from by
              rw [show encObjT (lvl + 1) (.cons k v fs)
                = ',' :: '\n' :: (indentC (lvl + 1) ++ encStr k.data
                    ++ ':' :: ' ' :: encVal (lvl + 1) v ++ encObjT (lvl + 1) fs) from rfl]
              simp [encStr]]
          rw [parseObjTail_comma f _ _ _
            (by rw [skipWs_cons_not ',' _ (by decide)])
            (by rw [skipWs_nl, skipWs_indent, skipWs_cons_not '"' _ (by decide)])]
          rw [parseStrBody_enc, Option.some_bind]
          rw [expectColonWs_enc (lvl + 1) v hw2.1, Option.some_bind]
          rw [parseVal_enc v (lvl + 1) _ f hw2.1 hfv hR1, Option.some_bind]
          rw [parseObjTail_enc fs lvl rest f hw2.2 hffs, Option.some_bind]
end


mutual
theorem fsizeV_le : ∀ (j : Json) (lvl : Nat), fsizeV j ≤ (encVal lvl j).length + 1
  | .null, lvl => by simp [fsizeV, encVal]
  | .bool true, lvl => by simp [fsizeV, encVal]
  | .bool false, lvl => by simp [fsizeV, encVal]
  | .num lit, lvl => by simp [fsizeV, encVal]
  | .str s, lvl => by simp [fsizeV, encVal]
  | .arr .nil, lvl => by simp [fsizeV, fsizeA, encVal]
  | .arr (.cons x xs), lvl => by
      have h1 := fsizeV_le x (lvl + 1)
      have h2 := fsizeA_le xs (lvl + 1)
      rw [show encVal lvl (.arr (.cons x xs))
        = '[' :: '\n' :: (indentC (lvl + 1) ++ encVal (lvl + 1) x ++ encArrT (lvl + 1) xs
            ++ '\n' :: indentC lvl ++ [']']) from rfl]
      simp only [fsizeV, fsizeA, List.length_cons, List.length_append]
      omega
  | .obj .nil, lvl => by simp [fsizeV, fsizeO, encVal]
  | .obj (.cons k v fs), lvl => by
      have h1 := fsizeV_le v (lvl + 1)
      have h2 := fsizeO_le fs (lvl + 1)
      rw [show encVal lvl (.obj (.cons k v fs))
        = '\x7b' :: '\n' :: (indentC (lvl + 1) ++ encStr k.data
            ++ ':' :: ' ' :: encVal (lvl + 1) v
            ++ encObjT (lvl + 1) fs ++ '\n' :: indentC lvl ++ ['\x7d']) from rfl]
      simp only [fsizeV, fsizeO, List.length_cons, List.length_append]
      omega
theorem fsizeA_le : ∀ (xs : JArr) (lvl : Nat), fsizeA xs ≤ (encArrT lvl xs).length + 1
  | .nil, lvl => by simp [fsizeA, encArrT]
  | .cons x xs, lvl => by
      have h1 := fsizeV_le x lvl
      have h2 := fsizeA_le xs lvl
      rw [show encArrT lvl (.cons x xs)
        = ',' :: '\n' :: (indentC lvl ++ encVal lvl x ++ encArrT lvl xs) from rfl]
      simp only [fsizeA, List.length_cons, List.length_append]
      omega
theorem fsizeO_le : ∀ (fs : JObj) (lvl : Nat), fsizeO fs ≤ (encObjT lvl fs).length + 1
  | .nil, lvl => by simp [fsizeO, encObjT]
  | .cons k v fs, lvl => by
      have h1 := fsizeV_le v lvl
      have h2 := fsizeO_le fs lvl
      rw [show encObjT lvl (.cons k v fs)
        = ',' :: '\n' :: (indentC lvl ++ encStr k.data ++ ':' :: ' ' :: encVal lvl v
            ++ encObjT lvl fs) from rfl]
      simp only [fsizeO, List.length_cons, List.length_append]
      omega
end

/-- Round trip: re-parsing an encoded well-formed tree gives the tree back.
This mirrors the fact that Go can always re-decode what `MarshalIndent`
produced, obtaining an equivalent value. -/
theorem parseJson_encodeIndent (j : Json) (hw : wfV j = true) :
    parseJson (encodeIndent j) = some j := by
  obtain ⟨c, t, he, hws, -, -⟩ := encVal_head 0 j hw
  have hdata : (encodeIndent j).data = encVal 0 j := rfl
  have hv := parseVal_enc j 0 [] ((encVal 0 j).length + 1) hw
    (by simpa using fsizeV_le j 0) trivial
  rw [List.append_nil] at hv
  rw [parseJson, hdata, he, skipWs_cons_not c t hws, ← he, hv]
  rfl


mutual
theorem parseVal_wf : ∀ (fuel : Nat) (cs : List Char) (j : Json) (r : List Char),
    parseVal fuel cs = some (j, r) → wfV j = true
  | 0, cs, j, r, h => by simp [parseVal] at h
  | fuel + 1, cs, j, r, h => by
      cases cs with
      | nil => simp [parseVal] at h
      | cons c cs2 =>
          simp only [parseVal] at h
          split at h
          · -- c = 'n'
            split at h
            · injection h with h1
              injection h1 with hj hr
              rw [← hj]; rfl
            · exact absurd h (by simp)
          split at h
          · split at h
            · injection h with h1
              injection h1 with hj hr
              rw [← hj]; rfl
            · exact absurd h (by simp)
          split at h
          · split at h
            · injection h with h1
              injection h1 with hj hr
              rw [← hj]; rfl
            · exact absurd h (by simp)
          split at h
          · -- c = quote
            rcases hx : parseStrBody cs2 with _ | p
            · rw [hx] at h; exact absurd h (by simp)
            · rw [hx] at h
              simp only [Option.map_some'] at h
              injection h with h1
              injection h1 with hj hr
              rw [← hj]; rfl
          split at h
          · -- c = lbrack
            split at h
            · exact absurd h (by simp)
            split at h
            · injection h with h1
              injection h1 with hj hr
              rw [← hj]; rfl
            · rcases hx : parseVal fuel _ with _ | px
              · rw [hx] at h; exact absurd h (by simp)
              rw [hx] at h
              simp at h
              rcases hxs : parseArrTail fuel px.2 with _ | pxs
              · rw [hxs] at h; exact absurd h (by simp)
              rw [hxs] at h
              simp at h
              obtain ⟨hj, hr⟩ := h
              subst hj
              simp only [wfV, wfA, Bool.and_eq_true]
              exact ⟨parseVal_wf fuel _ _ _ hx, parseArrTail_wf fuel _ _ _ hxs⟩
          split at h
          · -- c = lbrace
            split at h
            · exact absurd h (by simp)
            split at h
            · injection h with h1
              injection h1 with hj hr
              rw [← hj]; rfl
            split at h
            · rcases hk : parseStrBody _ with _ | pk
              · rw [hk] at h; exact absurd h (by simp)
              rw [hk] at h
              simp at h
              rcases hc : expectColonWs pk.2 with _ | r2
              · rw [hc] at h; exact absurd h (by simp)
              rw [hc] at h
              simp at h
              rcases hv : parseVal fuel r2 with _ | pv
              · rw [hv] at h; exact absurd h (by simp)
              rw [hv] at h
              simp at h
              rcases hfs : parseObjTail fuel pv.2 with _ | pfs
              · rw [hfs] at h; exact absurd h (by simp)
              rw [hfs] at h
              simp at h
              obtain ⟨hj, hr⟩ := h
              subst hj
              simp only [wfV, wfO, Bool.and_eq_true]
              exact ⟨parseVal_wf fuel _ _ _ hv, parseObjTail_wf fuel _ _ _ hfs⟩
            · exact absurd h (by simp)
          split at h
          · -- number branch
            rcases hn : parseNumber (c :: cs2) with _ | pn
            · rw [hn] at h; exact absurd h (by simp)
            rw [hn] at h
            simp only [Option.map_some'] at h
            injection h with h1
            injection h1 with hj hr
            obtain ⟨-, -, hext⟩ := parseNumber_ext _ _ _ hn
            have hself := hext [] trivial
            rw [List.append_nil] at hself
            rw [← hj]
            simp only [wfV, decide_eq_true_eq]
            exact hself
          · exact absurd h (by simp)
theorem parseArrTail_wf : ∀ (fuel : Nat) (cs : List Char) (xs : JArr) (r : List Char),
    parseArrTail fuel cs = some (xs, r) → wfA xs = true
  | 0, cs, xs, r, h => by simp [parseArrTail] at h
  | fuel + 1, cs, xs, r, h => by
      simp only [parseArrTail] at h
      split at h
      · exact absurd h (by simp)
      split at h
      · injection h with h1
        injection h1 with hj hr
        rw [← hj]; rfl
      split at h
      · rcases hx : parseVal fuel _ with _ | px
        · rw [hx] at h; exact absurd h (by simp)
        rw [hx] at h
        simp at h
        rcases hxs : parseArrTail fuel px.2 with _ | pxs
        · rw [hxs] at h; exact absurd h (by simp)
        rw [hxs] at h
        simp at h
        obtain ⟨hj, hr⟩ := h
        subst hj
        simp only [wfA, Bool.and_eq_true]
        exact ⟨parseVal_wf fuel _ _ _ hx, parseArrTail_wf fuel _ _ _ hxs⟩
      · exact absurd h (by simp)
theorem parseObjTail_wf : ∀ (fuel : Nat) (cs : List Char) (fs : JObj) (r : List Char),
    parseObjTail fuel cs = some (fs, r) → wfO fs = true
  | 0, cs, fs, r, h => by simp [parseObjTail] at h
  | fuel + 1, cs, fs, r, h => by
      simp only [parseObjTail] at h
      split at h
      · exact absurd h (by simp)
      split at h
      · injection h with h1
        injection h1 with hj hr
        rw [← hj]; rfl
      split at h
      · split at h
        · exact absurd h (by simp)
        split at h
        · rcases hk : parseStrBody _ with _ | pk
          · rw [hk] at h; exact absurd h (by simp)
          rw [hk] at h
          simp at h
          rcases hc : expectColonWs pk.2 with _ | r2
          · rw [hc] at h; exact absurd h (by simp)
          rw [hc] at h
          simp at h
          rcases hv : parseVal fuel r2 with _ | pv
          · rw [hv] at h; exact absurd h (by simp)
          rw [hv] at h
          simp at h
          rcases hfs : parseObjTail fuel pv.2 with _ | pfs
          · rw [hfs] at h; exact absurd h (by simp)
          rw [hfs] at h
          simp at h
          obtain ⟨hj, hr⟩ := h
          subst hj
          simp only [wfO, Bool.and_eq_true]
          exact ⟨parseVal_wf fuel _ _ _ hv, parseObjTail_wf fuel _ _ _ hfs⟩
        · exact absurd h (by simp)
      · exact absurd h (by simp)
end

/-- Trees decoded by the parser are always well formed. -/
theorem parseJson_wf (s : String) (j : Json) (h : parseJson s = some j) : wfV j = true := by
  rw [parseJson] at h
  rcases hx : parseVal (s.data.length + 1) (skipWs s.data) with _ | ⟨jj, r⟩
  · rw [hx] at h; exact absurd h (by simp)
  rw [hx] at h
  simp only [] at h
  split at h
  · injection h with hj
    subst hj
    exact parseVal_wf _ _ _ _ hx
  · exact absurd h (by simp)


/-! ## The value normalizer

`ResourceChangeData.format` from `plan.go`, embedded over `Json`.
Go-API failure conditions are modelled by their actual conditions:
`json.Valid` accepts exactly what the grammar accepts; `json.Unmarshal`
into a `json.RawMessage` succeeds on exactly the valid inputs and stores
the raw bytes; `json.MarshalIndent` of a `RawMessage` succeeds iff the raw
bytes are valid JSON and re-encodes them with two-space indentation.
In Go an error while formatting a nested element aborts the whole
normalization; since the error branch is unreachable (see
`c10_format_never_fails`) the difference between aborting mid-way and
transforming everything is unobservable. -/

def jsonValid (s : String) : Bool := (parseJson s).isSome

def unmarshalRaw (s : String) : Except String String :=
  if jsonValid s then .ok s else .error "unexpected end of JSON input"

def marshalIndentRaw (s : String) : Except String String :=
  match parseJson s with
  | some j => .ok (encodeIndent j)
  | none => .error "json: cannot marshal invalid raw message"

mutual
def format : Json → Except String Json
  | .arr xs => (formatArr xs).map Json.arr
  | .obj fs => (formatObj fs).map Json.obj
  | .str s =>
      if ! jsonValid s then .ok (.str s)
      else
        match unmarshalRaw s with
        | .ok raw =>
            match marshalIndentRaw raw with
            | .ok a => .ok (.str a)
            | .error e => .error e
        | .error _ => .ok (.str s)
  | v => .ok v
def formatArr : JArr → Except String JArr
  | .nil => .ok .nil
  | .cons x xs => do
      let x2 ← format x
      let xs2 ← formatArr xs
      pure (.cons x2 xs2)
def formatObj : JObj → Except String JObj
  | .nil => .ok .nil
  | .cons k v fs => do
      let v2 ← format v
      let fs2 ← formatObj fs
      pure (.cons k v2 fs2)
end

mutual
/-- Modelled from the spec (section 4.3, Value Normalizer), as a total
function: arrays and objects are normalized element-wise with order, keys
and counts preserved; a string that parses as JSON is replaced by its
two-space-indented re-encoding, any other string and every other kind of
value is returned unchanged. -/
def specNormalize : Json → Json
  | .arr xs => .arr (specNormalizeArr xs)
  | .obj fs => .obj (specNormalizeObj fs)
  | .str s =>
      match parseJson s with
      | some j => .str (encodeIndent j)
      | none => .str s
  | v => v
def specNormalizeArr : JArr → JArr
  | .nil => .nil
  | .cons x xs => .cons (specNormalize x) (specNormalizeArr xs)
def specNormalizeObj : JObj → JObj
  | .nil => .nil
  | .cons k v fs => .cons k (specNormalize v) (specNormalizeObj fs)
end

mutual
theorem format_eq_spec : ∀ j : Json, format j = .ok (specNormalize j)
  | .null => rfl
  | .bool b => rfl
  | .num lit => rfl
  | .str s => by
      rcases hp : parseJson s with _ | i
      · rw [show format (.str s) = .ok (.str s) from by
          simp [format, jsonValid, hp]]
        rw [show specNormalize (.str s) = .str s from by simp [specNormalize, hp]]
      · rw [show format (.str s) = .ok (.str (encodeIndent i)) from by
          simp [format, jsonValid, unmarshalRaw, marshalIndentRaw, hp]]
        rw [show specNormalize (.str s) = .str (encodeIndent i) from by
          simp [specNormalize, hp]]
  | .arr xs => by
      rw [show format (.arr xs) = (formatArr xs).map Json.arr from rfl]
      rw [formatArr_eq_spec xs]
      rfl
  | .obj fs => by
      rw [show format (.obj fs) = (formatObj fs).map Json.obj from rfl]
      rw [formatObj_eq_spec fs]
      rfl
theorem formatArr_eq_spec : ∀ xs : JArr, formatArr xs = .ok (specNormalizeArr xs)
  | .nil => rfl
  | .cons x xs => by
      rw [show formatArr (.cons x xs) = do
          let x2 ← format x
          let xs2 ← formatArr xs
          pure (JArr.cons x2 xs2) from rfl]
      rw [format_eq_spec x, formatArr_eq_spec xs]
      rfl
theorem formatObj_eq_spec : ∀ fs : JObj, formatObj fs = .ok (specNormalizeObj fs)
  | .nil => rfl
  | .cons k v fs => by
      rw [show formatObj (.cons k v fs) = do
          let v2 ← format v
          let fs2 ← formatObj fs
          pure (JObj.cons k v2 fs2) from rfl]
      rw [format_eq_spec v, formatObj_eq_spec fs]
      rfl
end

mutual
theorem specNormalize_idem : ∀ j : Json, specNormalize (specNormalize j) = specNormalize j
  | .null => rfl
  | .bool b => rfl
  | .num lit => rfl
  | .str s => by
      rcases hp : parseJson s with _ | i
      · rw [show specNormalize (.str s) = .str s from by simp [specNormalize, hp]]
        rw [show specNormalize (.str s) = .str s from by simp [specNormalize, hp]]
      · rw [show specNormalize (.str s) = .str (encodeIndent i) from by
          simp [specNormalize, hp]]
        have hwf := parseJson_wf s i hp
        rw [show specNormalize (.str (encodeIndent i)) = .str (encodeIndent i) from by
          simp [specNormalize, parseJson_encodeIndent i hwf]]
  | .arr xs => by
      rw [show specNormalize (.arr xs) = .arr (specNormalizeArr xs) from rfl]
      rw [show specNormalize (.arr (specNormalizeArr xs))
        = .arr (specNormalizeArr (specNormalizeArr xs)) from rfl]
      rw [specNormalizeArr_idem xs]
  | .obj fs => by
      rw [show specNormalize (.obj fs) = .obj (specNormalizeObj fs) from rfl]
      rw [show specNormalize (.obj (specNormalizeObj fs))
        = .obj (specNormalizeObj (specNormalizeObj fs)) from rfl]
      rw [specNormalizeObj_idem fs]
theorem specNormalizeArr_idem : ∀ xs : JArr,
    specNormalizeArr (specNormalizeArr xs) = specNormalizeArr xs
  | .nil => rfl
  | .cons x xs => by
      rw [show specNormalizeArr (.cons x xs)
        = .cons (specNormalize x) (specNormalizeArr xs) from rfl]
      rw [show specNormalizeArr (.cons (specNormalize x) (specNormalizeArr xs))
        = .cons (specNormalize (specNormalize x))
            (specNormalizeArr (specNormalizeArr xs)) from rfl]
      rw [specNormalize_idem x, specNormalizeArr_idem xs]
theorem specNormalizeObj_idem : ∀ fs : JObj,
    specNormalizeObj (specNormalizeObj fs) = specNormalizeObj fs
  | .nil => rfl
  | .cons k v fs => by
      rw [show specNormalizeObj (.cons k v fs)
        = .cons k (specNormalize v) (specNormalizeObj fs) from rfl]
      rw [show specNormalizeObj (.cons k (specNormalize v) (specNormalizeObj fs))
        = .cons k (specNormalize (specNormalize v))
            (specNormalizeObj (specNormalizeObj fs)) from rfl]
      rw [specNormalize_idem v, specNormalizeObj_idem fs]
end


/-! ## Resource changes and the change classifier

`Actions` predicates are modelled from `github.com/hashicorp/terraform-json`
(an external dependency of the repository): each predicate is an exact
length-and-content check on the action list, e.g. `Create()` is
`len(a) == 1 && a[0] == ActionCreate`, and `Replace()` is the
create-before-destroy or destroy-before-create pair.

`ResourceChange` carries the fields of `tfjson.ResourceChange` that the
pipeline reads (`Address`, `Type`, `Name`, `Change.Actions`,
`Change.Before`, `Change.After`).  A missing/`null` before or after
decodes to Go `nil`, which `format` and `MarshalIndent` treat exactly as
JSON `null`; it is modelled as `Json.null`. -/

namespace Actions

def noOp (a : List String) : Bool := a == ["no-op"]

def create (a : List String) : Bool := a == ["create"]

def read (a : List String) : Bool := a == ["read"]

def update (a : List String) : Bool := a == ["update"]

def delete (a : List String) : Bool := a == ["delete"]

def createBeforeDestroy (a : List String) : Bool := a == ["create", "delete"]

def destroyBeforeCreate (a : List String) : Bool := a == ["delete", "create"]

def replace (a : List String) : Bool := createBeforeDestroy a || destroyBeforeCreate a

end Actions

structure ResourceChange where
  address : String
  type : String
  name : String
  actions : List String
  before : Json
  after : Json
  deriving DecidableEq, Repr

structure ResourceChangeData where
  resourceChange : ResourceChange
  deriving DecidableEq, Repr

structure PlanData where
  createdAddresses : List String
  updatedAddresses : List String
  deletedAddresses : List String
  replacedAddresses : List String
  resourceChanges : List ResourceChangeData
  deriving DecidableEq, Repr

/-- `ResourceChangeData.HeaderSuffix` from `plan.go`. -/
def ResourceChangeData.headerSuffix (r : ResourceChangeData) : String :=
  if Actions.create r.resourceChange.actions then "will be created"
  else if Actions.update r.resourceChange.actions then "will be updated in-place"
  else if Actions.delete r.resourceChange.actions then "will be destroyed"
  else if Actions.replace r.resourceChange.actions then "will be replaced"
  else ""

/-- One iteration of the classification loop in `NewPlanData`
(`plan.go` lines 177-195). -/
def classifyStep (pd : PlanData) (c : ResourceChange) : PlanData :=
  if Actions.noOp c.actions || Actions.read c.actions then pd
  else
    let pd1 :=
      if Actions.create c.actions then
        { pd with createdAddresses := pd.createdAddresses ++ [c.address] }
      else if Actions.update c.actions then
        { pd with updatedAddresses := pd.updatedAddresses ++ [c.address] }
      else if Actions.delete c.actions then
        { pd with deletedAddresses := pd.deletedAddresses ++ [c.address] }
      else if Actions.replace c.actions then
        { pd with replacedAddresses := pd.replacedAddresses ++ [c.address] }
      else pd
    { pd1 with resourceChanges := pd1.resourceChanges ++ [⟨c⟩] }

def emptyPlanData : PlanData := ⟨[], [], [], [], []⟩

/-- The classification loop of `NewPlanData` over the sanitized plan's
resource changes. -/
def classifyChanges (cs : List ResourceChange) : PlanData :=
  cs.foldl classifyStep emptyPlanData

/-- A record is retained iff its action list is neither exactly
`["no-op"]` nor exactly `["read"]`. -/
def keep (c : ResourceChange) : Bool :=
  ! (Actions.noOp c.actions || Actions.read c.actions)

theorem noOp_not {a : List String} (h : Actions.noOp a = true) :
    Actions.create a = false ∧ Actions.update a = false ∧ Actions.delete a = false ∧
      Actions.replace a = false := by
  simp only [Actions.noOp, beq_iff_eq] at h
  subst h; decide

theorem read_not {a : List String} (h : Actions.read a = true) :
    Actions.create a = false ∧ Actions.update a = false ∧ Actions.delete a = false ∧
      Actions.replace a = false := by
  simp only [Actions.read, beq_iff_eq] at h
  subst h; decide

theorem create_not {a : List String} (h : Actions.create a = true) :
    Actions.noOp a = false ∧ Actions.read a = false := by
  simp only [Actions.create, beq_iff_eq] at h
  subst h; decide

theorem update_not {a : List String} (h : Actions.update a = true) :
    Actions.noOp a = false ∧ Actions.read a = false ∧ Actions.create a = false := by
  simp only [Actions.update, beq_iff_eq] at h
  subst h; decide

theorem delete_not {a : List String} (h : Actions.delete a = true) :
    Actions.noOp a = false ∧ Actions.read a = false ∧ Actions.create a = false ∧
      Actions.update a = false := by
  simp only [Actions.delete, beq_iff_eq] at h
  subst h; decide

theorem replace_not {a : List String} (h : Actions.replace a = true) :
    Actions.noOp a = false ∧ Actions.read a = false ∧ Actions.create a = false ∧
      Actions.update a = false ∧ Actions.delete a = false := by
  simp only [Actions.replace, Actions.createBeforeDestroy, Actions.destroyBeforeCreate,
    Bool.or_eq_true, beq_iff_eq] at h
  rcases h with h | h <;> (subst h; decide)

/-- Full characterization of the classification loop: each address list is
the order-preserving projection of the matching records, and the retained
sequence is the order-preserving filter of the records that are neither
no-op nor read. -/
theorem foldl_classifyStep (cs : List ResourceChange) : ∀ pd : PlanData,
    cs.foldl classifyStep pd = PlanData.mk
      (pd.createdAddresses
        ++ (cs.filter (fun c => Actions.create c.actions)).map (fun c => c.address))
      (pd.updatedAddresses
        ++ (cs.filter (fun c => Actions.update c.actions)).map (fun c => c.address))
      (pd.deletedAddresses
        ++ (cs.filter (fun c => Actions.delete c.actions)).map (fun c => c.address))
      (pd.replacedAddresses
        ++ (cs.filter (fun c => Actions.replace c.actions)).map (fun c => c.address))
      (pd.resourceChanges ++ (cs.filter keep).map (fun c => ⟨c⟩)) := by
  induction cs with
  | nil => intro pd; simp
  | cons c cs ih =>
      intro pd
      rw [List.foldl_cons, ih (classifyStep pd c)]
      by_cases h1 : Actions.noOp c.actions = true
      · obtain ⟨n1, n2, n3, n4⟩ := noOp_not h1
        simp [classifyStep, keep, h1, n1, n2, n3, n4, List.filter_cons]
      by_cases h2 : Actions.read c.actions = true
      · obtain ⟨n1, n2, n3, n4⟩ := read_not h2
        simp [classifyStep, keep, h1, h2, n1, n2, n3, n4, List.filter_cons]
      by_cases h3 : Actions.create c.actions = true
      · obtain ⟨n1, n2⟩ := create_not h3
        have hu : Actions.update c.actions = false := by
          by_cases hx : Actions.update c.actions = true
          · exact absurd h3 (by simp [(update_not hx).2.2])
          · simpa using hx
        have hd : Actions.delete c.actions = false := by
          by_cases hx : Actions.delete c.actions = true
          · exact absurd h3 (by simp [(delete_not hx).2.2.1])
          · simpa using hx
        have hr : Actions.replace c.actions = false := by
          by_cases hx : Actions.replace c.actions = true
          · exact absurd h3 (by simp [(replace_not hx).2.2.1])
          · simpa using hx
        simp [classifyStep, keep, h1, h2, h3, hu, hd, hr, List.filter_cons]
      by_cases h4 : Actions.update c.actions = true
      · have hd : Actions.delete c.actions = false := by
          by_cases hx : Actions.delete c.actions = true
          · exact absurd h4 (by simp [(delete_not hx).2.2.2])
          · simpa using hx
        have hr : Actions.replace c.actions = false := by
          by_cases hx : Actions.replace c.actions = true
          · exact absurd h4 (by simp [(replace_not hx).2.2.2.1])
          · simpa using hx
        simp [classifyStep, keep, h1, h2, h3, h4, hd, hr, List.filter_cons]
      by_cases h5 : Actions.delete c.actions = true
      · have hr : Actions.replace c.actions = false := by
          by_cases hx : Actions.replace c.actions = true
          · exact absurd h5 (by simp [(replace_not hx).2.2.2.2])
          · simpa using hx
        simp [classifyStep, keep, h1, h2, h3, h4, h5, hr, List.filter_cons]
      by_cases h6 : Actions.replace c.actions = true
      · simp [classifyStep, keep, h1, h2, h3, h4, h5, h6, List.filter_cons]
      · simp [classifyStep, keep, h1, h2, h3, h4, h5, h6, List.filter_cons]

theorem classifyChanges_spec (cs : List ResourceChange) :
    classifyChanges cs = PlanData.mk
      ((cs.filter (fun c => Actions.create c.actions)).map (fun c => c.address))
      ((cs.filter (fun c => Actions.update c.actions)).map (fun c => c.address))
      ((cs.filter (fun c => Actions.delete c.actions)).map (fun c => c.address))
      ((cs.filter (fun c => Actions.replace c.actions)).map (fun c => c.address))
      ((cs.filter keep).map (fun c => ⟨c⟩)) := by
  rw [classifyChanges, foldl_classifyStep cs emptyPlanData]
  rfl


/-! ## The stored effect of normalization -/

/-- Effect of one `r.format(v)` call on the STORED value `v`.  In Go,
arrays (slices) and objects (maps) are mutated in place, so after the
call the stored value equals `format`'s returned value; `nil`, booleans
and numbers are returned unchanged, so for them too the stored value
equals the return value.  A top-level string, however, is an immutable Go
value, and `formatJsonString` discards `format`'s return value
(`if _, err := r.format(r.ResourceChange.Change.Before); err != nil`),
so a string stored directly in `Change.Before` / `Change.After` stays
unchanged even though `format` computed its re-encoding.  Errors still
propagate. -/
def formatStored : Json → Except String Json
  | .str s => (format (.str s)).map (fun _ => .str s)
  | v => format v

/-- `(*ResourceChangeData).formatJsonString` from `plan.go`: normalize the
stored `before`, then the stored `after`, propagating errors. -/
def ResourceChangeData.formatJsonString (r : ResourceChangeData) :
    Except String ResourceChangeData := do
  let b ← formatStored r.resourceChange.before
  let a ← formatStored r.resourceChange.after
  pure ⟨{ r.resourceChange with before := b, after := a }⟩

/-- `(*PlanData).formatJsonString` from `plan.go`: normalize every
retained record, in order, propagating errors. -/
def PlanData.formatJsonString (p : PlanData) : Except String PlanData := do
  let rcs ← p.resourceChanges.mapM ResourceChangeData.formatJsonString
  pure { p with resourceChanges := rcs }

/-- The stored value after normalization, per the amended reading: every
value is replaced by its spec normalization except a top-level string,
which stays as it was. -/
def specNormalizeStored : Json → Json
  | .str s => .str s
  | v => specNormalize v

theorem formatStored_eq : ∀ v : Json, formatStored v = .ok (specNormalizeStored v)
  | .null => rfl
  | .bool b => rfl
  | .num lit => rfl
  | .str s => by
      rw [show formatStored (.str s) = (format (.str s)).map (fun _ => .str s) from rfl]
      rw [format_eq_spec]
      rfl
  | .arr xs => by
      rw [show formatStored (.arr xs) = format (.arr xs) from rfl, format_eq_spec]
      rfl
  | .obj fs => by
      rw [show formatStored (.obj fs) = format (.obj fs) from rfl, format_eq_spec]
      rfl

/-- The normalized form of a stored record. -/
def specNormalizeRCD (r : ResourceChangeData) : ResourceChangeData :=
  ⟨{ r.resourceChange with
      before := specNormalizeStored r.resourceChange.before,
      after := specNormalizeStored r.resourceChange.after }⟩

theorem rcd_formatJsonString_eq (r : ResourceChangeData) :
    r.formatJsonString = .ok (specNormalizeRCD r) := by
  rw [ResourceChangeData.formatJsonString]
  rw [formatStored_eq, formatStored_eq]
  rfl

theorem mapM_formatJsonString (rcs : List ResourceChangeData) :
    rcs.mapM ResourceChangeData.formatJsonString = .ok (rcs.map specNormalizeRCD) := by
  induction rcs with
  | nil => rfl
  | cons r rs ih =>
      rw [List.mapM_cons, rcd_formatJsonString_eq r]
      rw [show (ResourceChangeData.formatJsonString : ResourceChangeData
        → Except String ResourceChangeData) = fun x => x.formatJsonString from rfl] at ih
      simp only [ih]
      rfl

theorem pd_formatJsonString_eq (p : PlanData) :
    p.formatJsonString = .ok { p with resourceChanges := p.resourceChanges.map specNormalizeRCD } := by
  rw [PlanData.formatJsonString, mapM_formatJsonString]
  rfl

/-! ## Claims about normalization -/

/-- C10: the normalizer's error branch is unreachable.  Whenever
`json.Valid` accepts a string, unmarshalling it into a `json.RawMessage`
succeeds, and `MarshalIndent` of that raw message succeeds, so `format`
never returns an error, and consequently the normalization step of plan
construction (`formatJsonString`) cannot fail. -/
theorem c10_format_never_fails :
    (∀ v : Json, ∃ w, format v = Except.ok w) ∧
      (∀ p : PlanData, ∃ q, p.formatJsonString = Except.ok q) :=
  ⟨fun v => ⟨specNormalize v, format_eq_spec v⟩,
   fun p => ⟨_, pd_formatJsonString_eq p⟩⟩

/-- C4: normalization is idempotent: if `format v` returns `w`, then
`format w` returns `w` again.  (In the pipeline every tree is a parser
output; idempotence here holds for all modelled trees, the string case
being settled by the parse/encode round trip.) -/
theorem c4_normalize_idempotent (v w : Json) (h : format v = Except.ok w) :
    format w = Except.ok w := by
  have h1 := format_eq_spec v
  rw [h1] at h
  injection h with hw
  subst hw
  rw [format_eq_spec, specNormalize_idem]

theorem c4_normalize_idempotent_witness :
    format (Json.str "[\n  1,\n  2\n]") = Except.ok (Json.str "[\n  1,\n  2\n]") :=
  c4_normalize_idempotent (Json.str "[1,2]") (Json.str "[\n  1,\n  2\n]") (by rfl)

/-- C2 counterexample: a record whose `before` is itself the (valid JSON)
string `"[1,2]"` keeps that string unchanged in the stored plan --- the
claim's re-encoding `"[\n  1,\n  2\n]"` differs, so the claimed
"including the top-level string case" replacement does not happen. -/
theorem c2_counterexample :
    ResourceChangeData.formatJsonString
        ⟨⟨"aws_instance.foo", "aws_instance", "foo", ["update"], Json.str "[1,2]", Json.null⟩⟩
      = Except.ok
        ⟨⟨"aws_instance.foo", "aws_instance", "foo", ["update"], Json.str "[1,2]", Json.null⟩⟩ ∧
    specNormalize (Json.str "[1,2]") = Json.str "[\n  1,\n  2\n]" ∧
    Json.str "[1,2]" ≠ Json.str "[\n  1,\n  2\n]" :=
  ⟨by rfl, by rfl, by decide⟩

/-- C2 (amended): normalization is applied once to the stored `before`
and once to the stored `after` of every retained record, independently;
each value is replaced by its spec normalization (valid-JSON strings
inside arrays and objects re-encoded with two-space indentation, invalid
strings unchanged), EXCEPT that a `before`/`after` which is itself a
top-level string is left unchanged in the stored plan, because
`formatJsonString` discards `format`'s return value for it. -/
theorem c2_normalization_amended :
    (∀ r : ResourceChangeData, r.formatJsonString = Except.ok (specNormalizeRCD r)) ∧
      (∀ p : PlanData, p.formatJsonString
        = Except.ok { p with resourceChanges := p.resourceChanges.map specNormalizeRCD }) :=
  ⟨rcd_formatJsonString_eq, pd_formatJsonString_eq⟩


/-! ## Claims about classification -/

theorem disjoint_filter_map_addr (cs : List ResourceChange)
    (hnd : (cs.map (fun c => c.address)).Nodup) (p q : ResourceChange → Bool)
    (hpq : ∀ c, p c = true → q c = true → False) :
    List.Disjoint ((cs.filter p).map (fun c => c.address))
      ((cs.filter q).map (fun c => c.address)) := by
  intro a ha hb
  simp only [List.mem_map, List.mem_filter] at ha hb
  obtain ⟨c1, ⟨hc1m, hc1p⟩, hc1a⟩ := ha
  obtain ⟨c2, ⟨hc2m, hc2q⟩, hc2a⟩ := hb
  have heq : c1 = c2 :=
    List.inj_on_of_nodup_map hnd hc1m hc2m (by rw [hc1a, hc2a])
  subst heq
  exact hpq c1 hc1p hc2q

/-- C1 counterexample: in a plan with a single record whose action list is
`["forget"]`, that record's action set excludes no-op and read, yet its
address lands in none of the four lists --- so the union of the lists is
strictly smaller than the set of addresses excluding no-op/read. -/
theorem c1_counterexample :
    (∃ c ∈ [(⟨"a", "t", "n", ["forget"], Json.null, Json.null⟩ : ResourceChange)],
      c.address = "a" ∧ Actions.noOp c.actions = false ∧ Actions.read c.actions = false) ∧
    "a" ∉ (classifyChanges [⟨"a", "t", "n", ["forget"], Json.null, Json.null⟩]).createdAddresses ∧
    "a" ∉ (classifyChanges [⟨"a", "t", "n", ["forget"], Json.null, Json.null⟩]).updatedAddresses ∧
    "a" ∉ (classifyChanges [⟨"a", "t", "n", ["forget"], Json.null, Json.null⟩]).deletedAddresses ∧
    "a" ∉ (classifyChanges [⟨"a", "t", "n", ["forget"], Json.null, Json.null⟩]).replacedAddresses := by
  refine ⟨⟨⟨"a", "t", "n", ["forget"], Json.null, Json.null⟩, by simp, by decide⟩, ?_, ?_, ?_, ?_⟩
    <;> decide

/-- C1 (amended): the union of the four address lists is exactly the set
of addresses of records matched by one of the four classifier predicates
(create, update, delete, replace); a record whose action set merely
excludes no-op and read but matches none of the four contributes to no
list.  Under the plan invariant that addresses are unique, the four lists
are pairwise disjoint. -/
theorem c1_classification_amended (cs : List ResourceChange)
    (hnd : (cs.map (fun c => c.address)).Nodup) :
    (∀ a : String,
      (a ∈ (classifyChanges cs).createdAddresses ∨ a ∈ (classifyChanges cs).updatedAddresses ∨
       a ∈ (classifyChanges cs).deletedAddresses ∨ a ∈ (classifyChanges cs).replacedAddresses)
        ↔ ∃ c ∈ cs, c.address = a ∧
            (Actions.create c.actions = true ∨ Actions.update c.actions = true ∨
             Actions.delete c.actions = true ∨ Actions.replace c.actions = true)) ∧
    List.Disjoint (classifyChanges cs).createdAddresses (classifyChanges cs).updatedAddresses ∧
    List.Disjoint (classifyChanges cs).createdAddresses (classifyChanges cs).deletedAddresses ∧
    List.Disjoint (classifyChanges cs).createdAddresses (classifyChanges cs).replacedAddresses ∧
    List.Disjoint (classifyChanges cs).updatedAddresses (classifyChanges cs).deletedAddresses ∧
    List.Disjoint (classifyChanges cs).updatedAddresses (classifyChanges cs).replacedAddresses ∧
    List.Disjoint (classifyChanges cs).deletedAddresses (classifyChanges cs).replacedAddresses := by
  rw [classifyChanges_spec]
  refine ⟨?_, ?_, ?_, ?_, ?_, ?_, ?_⟩
  · intro a
    simp only [List.mem_map, List.mem_filter]
    constructor
    · rintro (⟨c, ⟨hm, hp⟩, ha⟩ | ⟨c, ⟨hm, hp⟩, ha⟩ | ⟨c, ⟨hm, hp⟩, ha⟩ | ⟨c, ⟨hm, hp⟩, ha⟩)
      · exact ⟨c, hm, ha, Or.inl hp⟩
      · exact ⟨c, hm, ha, Or.inr (Or.inl hp)⟩
      · exact ⟨c, hm, ha, Or.inr (Or.inr (Or.inl hp))⟩
      · exact ⟨c, hm, ha, Or.inr (Or.inr (Or.inr hp))⟩
    · rintro ⟨c, hm, ha, hp | hp | hp | hp⟩
      · exact Or.inl ⟨c, ⟨hm, hp⟩, ha⟩
      · exact Or.inr (Or.inl ⟨c, ⟨hm, hp⟩, ha⟩)
      · exact Or.inr (Or.inr (Or.inl ⟨c, ⟨hm, hp⟩, ha⟩))
      · exact Or.inr (Or.inr (Or.inr ⟨c, ⟨hm, hp⟩, ha⟩))
  · exact disjoint_filter_map_addr cs hnd _ _
      (fun c h1 h2 => by simp [(update_not h2).2.2] at h1)
  · exact disjoint_filter_map_addr cs hnd _ _
      (fun c h1 h2 => by simp [(delete_not h2).2.2.1] at h1)
  · exact disjoint_filter_map_addr cs hnd _ _
      (fun c h1 h2 => by simp [(replace_not h2).2.2.1] at h1)
  · exact disjoint_filter_map_addr cs hnd _ _
      (fun c h1 h2 => by simp [(delete_not h2).2.2.2] at h1)
  · exact disjoint_filter_map_addr cs hnd _ _
      (fun c h1 h2 => by simp [(replace_not h2).2.2.2.1] at h1)
  · exact disjoint_filter_map_addr cs hnd _ _
      (fun c h1 h2 => by simp [(replace_not h2).2.2.2.2] at h1)

theorem c1_classification_amended_witness :
    List.Disjoint
      (classifyChanges [⟨"a", "t", "n", ["create"], Json.null, Json.null⟩,
        ⟨"b", "t", "n", ["delete"], Json.null, Json.null⟩]).createdAddresses
      (classifyChanges [⟨"a", "t", "n", ["create"], Json.null, Json.null⟩,
        ⟨"b", "t", "n", ["delete"], Json.null, Json.null⟩]).updatedAddresses :=
  (c1_classification_amended _ (by decide)).2.1

/-- C3: a retained record whose action set matches none of the four
classifier predicates is appended to no address list, is still appended to
the retained sequence (so the rendered report contains a diff block for
it), and its header suffix is the empty string. -/
theorem c3_unmatched_action_retained (cs : List ResourceChange) (c : ResourceChange)
    (h1 : Actions.noOp c.actions = false) (h2 : Actions.read c.actions = false)
    (h3 : Actions.create c.actions = false) (h4 : Actions.update c.actions = false)
    (h5 : Actions.delete c.actions = false) (h6 : Actions.replace c.actions = false) :
    (classifyChanges (cs ++ [c])).createdAddresses = (classifyChanges cs).createdAddresses ∧
    (classifyChanges (cs ++ [c])).updatedAddresses = (classifyChanges cs).updatedAddresses ∧
    (classifyChanges (cs ++ [c])).deletedAddresses = (classifyChanges cs).deletedAddresses ∧
    (classifyChanges (cs ++ [c])).replacedAddresses = (classifyChanges cs).replacedAddresses ∧
    (classifyChanges (cs ++ [c])).resourceChanges
      = (classifyChanges cs).resourceChanges ++ [⟨c⟩] ∧
    ResourceChangeData.headerSuffix ⟨c⟩ = "" := by
  rw [classifyChanges_spec, classifyChanges_spec]
  refine ⟨?_, ?_, ?_, ?_, ?_, ?_⟩ <;>
    simp [List.filter_append, keep, h1, h2, h3, h4, h5, h6,
      ResourceChangeData.headerSuffix]

theorem c3_unmatched_action_retained_witness :
    (classifyChanges ([] ++ [⟨"a", "t", "n", ["forget"], Json.null, Json.null⟩])).resourceChanges
      = (classifyChanges []).resourceChanges
        ++ [⟨⟨"a", "t", "n", ["forget"], Json.null, Json.null⟩⟩] :=
  (c3_unmatched_action_retained [] _ (by decide) (by decide) (by decide) (by decide)
    (by decide) (by decide)).2.2.2.2.1

/-- C6 counterexample: a record whose action set CONTAINS no-op (here
`["no-op", "create"]`) is nevertheless retained: it lands in the
resource-change sequence, so a diff block is rendered for it and it does
reach the normalizer and diff renderer.  Only the exact singletons
`["no-op"]` / `["read"]` are skipped. -/
theorem c6_counterexample :
    ("no-op" ∈ (["no-op", "create"] : List String)) ∧
    (classifyChanges [⟨"a", "t", "n", ["no-op", "create"], Json.null, Json.null⟩]).resourceChanges
      ≠ [] := by
  refine ⟨by decide, ?_⟩
  decide

/-- C6 (amended): a record whose action list is exactly `["no-op"]` or
exactly `["read"]` is excluded from the report entirely: appending it to a
plan changes nothing --- no address list, no retained record, hence no
diff block, and it never reaches the normalizer or the diff renderer
(both run only over the retained sequence). -/
theorem c6_skip_amended (cs : List ResourceChange) (c : ResourceChange)
    (h : Actions.noOp c.actions = true ∨ Actions.read c.actions = true) :
    classifyChanges (cs ++ [c]) = classifyChanges cs := by
  rw [classifyChanges_spec, classifyChanges_spec]
  rcases h with h | h
  · obtain ⟨n1, n2, n3, n4⟩ := noOp_not h
    simp [List.filter_append, keep, h, n1, n2, n3, n4]
  · obtain ⟨n1, n2, n3, n4⟩ := read_not h
    simp [List.filter_append, keep, h, n1, n2, n3, n4]

theorem c6_skip_amended_witness :
    classifyChanges ([] ++ [⟨"a", "t", "n", ["no-op"], Json.null, Json.null⟩])
      = classifyChanges [] :=
  c6_skip_amended [] _ (Or.inl (by decide))


/-! ## The diff library

`GetUnifiedDiffString` (`plan.go` lines 112-134) delegates line diffing to
`github.com/pmezard/go-difflib/difflib`, which is not part of this
repository's sources.  The spec (section 4.4, steps 5-6) pins down the
contract: split both post-processed texts into lines and compute a unified
diff with 3 lines of context in classic unified-diff format, delegated to
the difflib algorithm.  The definitions below model that library call: a
functional transcription of the difflib entry points used here
(`SplitLines`, `SequenceMatcher` as `NewMatcher` builds it -- no junk
predicate, automatic junk detection enabled -- `GetMatchingBlocks`,
`GetOpCodes`, `GetGroupedOpcodes`, `WriteUnifiedDiff`).  Lines are
`List Char`; positions are `Int`, matching Go's `int`; out-of-range
indexing, which never happens on the reachable inputs, yields `[]`. -/

/-- Modelled from the spec (section 4.4 step 5): `strings.SplitAfter s "\n"`,
splitting after every newline and keeping the separators. -/
def splitAfterNl : List Char → List (List Char)
  | [] => [[]]
  | c :: cs =>
    if c = '\n' then [c] :: splitAfterNl cs
    else
      match splitAfterNl cs with
      | [] => [[c]]
      | l :: ls => (c :: l) :: ls

/-- Modelled from the spec (section 4.4 step 5): `difflib.SplitLines`
appends a newline to the final (possibly empty) piece. -/
def appendLastNl : List (List Char) → List (List Char)
  | [] => [['\n']]
  | [l] => [l ++ ['\n']]
  | l :: ls => l :: appendLastNl ls

/-- Modelled from the spec (section 4.4 step 5): `difflib.SplitLines`. -/
def splitLines (s : List Char) : List (List Char) :=
  appendLastNl (splitAfterNl s)

/-- Indexing a sequence of lines at a Go `int` position (the library never
indexes out of range; that case yields `[]`). -/
def sGet (xs : List (List Char)) (i : Int) : List Char :=
  if 0 ≤ i then xs.getD i.toNat [] else []

/-- The ascending list of positions of line `e` in `b`: the `b2j` map of
`SequenceMatcher.chainB` before junk removal. -/
def positions (b : List (List Char)) (e : List Char) : List Nat :=
  (List.range b.length).filter (fun j => b.getD j [] == e)

/-- Automatic junk detection of `chainB` (`autoJunk` is true and the
sequences here are at least 200 lines long only in large plans): an
element is popular when the sequence has at least 200 lines and the
element occurs in more than `len/100 + 1` of them. -/
def isPopular (b : List (List Char)) (e : List Char) : Bool :=
  decide (200 ≤ b.length) && decide (b.length / 100 + 1 < (positions b e).length)

/-- `b2j` after `chainB` deletes popular elements.  `NewMatcher` passes no
junk predicate, so `bJunk` is empty and only popularity filters. -/
def b2j (b : List (List Char)) (e : List Char) : List Nat :=
  if isPopular b e then [] else positions b e

/-- The inner loop of `findLongestMatch` over the `b2j` positions of the
current row's element: reads the previous row's chain lengths `j2len`,
writes the current row's into `new`, and improves `best` on a strictly
longer chain.  `continue` skips positions below `blo`; `break` stops at the
first position at or above `bhi` (the list is ascending). -/
def flmInner (j2len : Int → Nat) (blo bhi i : Nat) :
    List Nat → (Int → Nat) → Int × Int × Nat → (Int → Nat) × (Int × Int × Nat)
  | [], new, best => (new, best)
  | j :: js, new, best =>
    if j < blo then flmInner j2len blo bhi i js new best
    else if bhi ≤ j then (new, best)
    else
      flmInner j2len blo bhi i js
        (fun x => if x = (j : Int) then j2len ((j : Int) - 1) + 1 else new x)
        (if best.2.2 < j2len ((j : Int) - 1) + 1 then
          ((i : Int) - (j2len ((j : Int) - 1) + 1) + 1,
           (j : Int) - (j2len ((j : Int) - 1) + 1) + 1,
           j2len ((j : Int) - 1) + 1)
         else best)

/-- The outer loop of `findLongestMatch` over rows `alo, ..., ahi - 1`:
each row starts a fresh `newj2len` map and installs it as `j2len` for the
next row. -/
def flmRows (b2jf : List Char → List Nat) (a : List (List Char)) (blo bhi : Nat) :
    List Nat → (Int → Nat) → Int × Int × Nat → Int × Int × Nat
  | [], _, best => best
  | i :: is, j2len, best =>
    flmRows b2jf a blo bhi is
      (flmInner j2len blo bhi i (b2jf (a.getD i [])) (fun _ => 0) best).1
      (flmInner j2len blo bhi i (b2jf (a.getD i [])) (fun _ => 0) best).2

/-- The backward extension loop of `findLongestMatch` (with an empty junk
set the two junk-extension loops never iterate and are omitted).  Each
iteration moves the match one line up; the fuel bounds the iteration
count, which never exceeds `besti - alo`. -/
def extendBack (a b : List (List Char)) (alo blo : Nat) :
    Nat → Int × Int × Nat → Int × Int × Nat
  | 0, best => best
  | fuel + 1, (bi, bj, sz) =>
    if (alo : Int) < bi ∧ (blo : Int) < bj ∧ sGet a (bi - 1) = sGet b (bj - 1) then
      extendBack a b alo blo fuel (bi - 1, bj - 1, sz + 1)
    else (bi, bj, sz)

/-- The forward extension loop of `findLongestMatch`. -/
def extendFwd (a b : List (List Char)) (ahi bhi : Nat) :
    Nat → Int × Int × Nat → Int × Int × Nat
  | 0, best => best
  | fuel + 1, (bi, bj, sz) =>
    if bi + (sz : Int) < (ahi : Int) ∧ bj + (sz : Int) < (bhi : Int) ∧
        sGet a (bi + (sz : Int)) = sGet b (bj + (sz : Int)) then
      extendFwd a b ahi bhi fuel (bi, bj, sz + 1)
    else (bi, bj, sz)

/-- `SequenceMatcher.findLongestMatch` on `a[alo:ahi]` and `b[blo:bhi]`:
the chain scan followed by the two extension passes.  The fuels
`a.length` and `b.length` dominate the extension iteration counts. -/
def findLongestMatch (b2jf : List Char → List Nat) (a b : List (List Char))
    (alo ahi blo bhi : Nat) : Int × Int × Nat :=
  extendFwd a b ahi bhi b.length (extendBack a b alo blo a.length
    (flmRows b2jf a blo bhi (List.range' alo (ahi - alo)) (fun _ => 0)
      ((alo : Int), (blo : Int), 0)))

/-- The recursive block collection of `GetMatchingBlocks`: longest match
first, then the region before it, then the region after it.  The fuel
dominates the recursion depth, which shrinks the spans strictly. -/
def matchBlocks (b2jf : List Char → List Nat) (a b : List (List Char)) :
    Nat → Nat → Nat → Nat → Nat → List (Int × Int × Nat)
  | 0, _, _, _, _ => []
  | fuel + 1, alo, ahi, blo, bhi =>
    let m := findLongestMatch b2jf a b alo ahi blo bhi
    if 0 < m.2.2 then
      (if (alo : Int) < m.1 ∧ (blo : Int) < m.2.1 then
        matchBlocks b2jf a b fuel alo m.1.toNat blo m.2.1.toNat
      else [])
      ++ [m]
      ++ (if m.1 + (m.2.2 : Int) < (ahi : Int) ∧ m.2.1 + (m.2.2 : Int) < (bhi : Int) then
        matchBlocks b2jf a b fuel (m.1 + (m.2.2 : Int)).toNat ahi
          (m.2.1 + (m.2.2 : Int)).toNat bhi
      else [])
    else []

/-- The adjacent-block merge at the end of `GetMatchingBlocks`, started
with the zero block `(0, 0, 0)`. -/
def nonAdjacent : List (Int × Int × Nat) → Int × Int × Nat → List (Int × Int × Nat)
  | [], (i1, j1, k1) => if 0 < k1 then [(i1, j1, k1)] else []
  | (i2, j2, k2) :: rest, (i1, j1, k1) =>
    if i1 + (k1 : Int) = i2 ∧ j1 + (k1 : Int) = j2 then
      nonAdjacent rest (i1, j1, k1 + k2)
    else
      (if 0 < k1 then [(i1, j1, k1)] else []) ++ nonAdjacent rest (i2, j2, k2)

/-- `SequenceMatcher.GetMatchingBlocks`: collected blocks, merged when
adjacent, with the sentinel `(len a, len b, 0)` appended. -/
def getMatchingBlocks (b2jf : List Char → List Nat) (a b : List (List Char)) :
    List (Int × Int × Nat) :=
  nonAdjacent (matchBlocks b2jf a b (a.length + b.length + 1) 0 a.length 0 b.length)
      (0, 0, 0)
    ++ [((a.length : Int), (b.length : Int), 0)]

/-- An opcode of `GetOpCodes`: tag `'r'`, `'d'`, `'i'` or `'e'` with the
half-open spans it covers in each sequence. -/
structure OpCode where
  tag : Char
  i1 : Int
  i2 : Int
  j1 : Int
  j2 : Int
  deriving DecidableEq, Repr

/-- The loop of `GetOpCodes` over the matching blocks, tracking the
covered prefixes `i` and `j`. -/
def opCodesLoop : List (Int × Int × Nat) → Int → Int → List OpCode
  | [], _, _ => []
  | (ai, bj, size) :: rest, i, j =>
    (if i < ai ∧ j < bj then [⟨'r', i, ai, j, bj⟩]
     else if i < ai then [⟨'d', i, ai, j, bj⟩]
     else if j < bj then [⟨'i', i, ai, j, bj⟩]
     else [])
    ++ (if 0 < size then [⟨'e', ai, ai + (size : Int), bj, bj + (size : Int)⟩] else [])
    ++ opCodesLoop rest (ai + (size : Int)) (bj + (size : Int))

/-- `SequenceMatcher.GetOpCodes`. -/
def getOpCodes (b2jf : List Char → List Nat) (a b : List (List Char)) : List OpCode :=
  opCodesLoop (getMatchingBlocks b2jf a b) 0 0

/-- `GetGroupedOpcodes` truncates a leading equal opcode to the last `n`
lines of context. -/
def truncFirst (n : Nat) : List OpCode → List OpCode
  | [] => []
  | c :: rest =>
    if c.tag = 'e' then
      ⟨c.tag, max c.i1 (c.i2 - (n : Int)), c.i2, max c.j1 (c.j2 - (n : Int)), c.j2⟩ :: rest
    else c :: rest

/-- `GetGroupedOpcodes` truncates a trailing equal opcode to the first `n`
lines of context. -/
def truncLast (n : Nat) : List OpCode → List OpCode
  | [] => []
  | [c] =>
    if c.tag = 'e' then
      [⟨c.tag, c.i1, min c.i2 (c.i1 + (n : Int)), c.j1, min c.j2 (c.j1 + (n : Int))⟩]
    else [c]
  | c :: rest => c :: truncLast n rest

/-- A pending group is kept unless it is empty or a single equal opcode. -/
def closeGroup (group : List OpCode) : List (List OpCode) :=
  match group with
  | [] => []
  | [c] => if c.tag = 'e' then [] else [[c]]
  | _ => [group]

/-- The grouping loop of `GetGroupedOpcodes`: a large equal range (more
than `2 n` lines) ends the current group with `n` trailing context lines
and starts the next with `n` leading ones. -/
def groupLoop (n : Nat) : List OpCode → List OpCode → List (List OpCode)
  | [], group => closeGroup group
  | c :: rest, group =>
    if c.tag = 'e' ∧ (2 * n : Int) < c.i2 - c.i1 then
      (group ++ [⟨c.tag, c.i1, min c.i2 (c.i1 + (n : Int)),
          c.j1, min c.j2 (c.j1 + (n : Int))⟩])
        :: groupLoop n rest
          [⟨c.tag, max c.i1 (c.i2 - (n : Int)), c.i2, max c.j1 (c.j2 - (n : Int)), c.j2⟩]
    else groupLoop n rest (group ++ [c])

/-- `SequenceMatcher.GetGroupedOpcodes` with `n` lines of context: an
empty opcode list stands for one equal line, the outer equal opcodes are
truncated, and the loop groups what remains. -/
def getGroupedOpcodes (b2jf : List Char → List Nat) (a b : List (List Char))
    (n : Nat) : List (List OpCode) :=
  let codes0 := getOpCodes b2jf a b
  let codes1 := if codes0 = [] then [⟨'e', 0, 1, 0, 1⟩] else codes0
  groupLoop n (truncLast n (truncFirst n codes1)) []

/-- `difflib.formatRangeUnified`. -/
def formatRangeUnified (start stop : Int) : List Char :=
  let beginning := start + 1
  let length := stop - start
  if length = 1 then (Int.repr beginning).data
  else
    (Int.repr (if length = 0 then beginning - 1 else beginning)).data
      ++ ',' :: (Int.repr length).data

/-- The lines `a[i1:i2]` of a sequence, at Go `int` bounds. -/
def sliceLines (xs : List (List Char)) (i1 i2 : Int) : List (List Char) :=
  (xs.drop i1.toNat).take (i2 - i1).toNat

/-- The per-opcode line output of `WriteUnifiedDiff`: context lines
prefixed with a space, removed lines with `-`, inserted lines with `+`
(lines already carry their trailing newline from `SplitLines`). -/
def writeGroupLines (A B : List (List Char)) : List OpCode → List Char
  | [] => []
  | c :: rest =>
    (if c.tag = 'e' then ((sliceLines A c.i1 c.i2).map (fun l => ' ' :: l)).flatten
     else
       (if c.tag = 'r' ∨ c.tag = 'd' then
         ((sliceLines A c.i1 c.i2).map (fun l => '-' :: l)).flatten
       else [])
       ++ (if c.tag = 'r' ∨ c.tag = 'i' then
         ((sliceLines B c.j1 c.j2).map (fun l => '+' :: l)).flatten
       else []))
    ++ writeGroupLines A B rest

/-- One group of `WriteUnifiedDiff`: the `@@` hunk header followed by the
group's lines.  The `---`/`+++` file headers are never written here:
`GetUnifiedDiffString` builds the `UnifiedDiff` with empty `FromFile` and
`ToFile`. -/
def writeGroup (A B : List (List Char)) (g : List OpCode) : List Char :=
  match g with
  | [] => []
  | first :: _ =>
    let lastc := g.getLastD ⟨' ', 0, 0, 0, 0⟩
    '@' :: '@' :: ' ' :: '-' :: formatRangeUnified first.i1 lastc.i2
      ++ ' ' :: '+' :: formatRangeUnified first.j1 lastc.j2
      ++ ' ' :: '@' :: '@' :: '\n' :: writeGroupLines A B g

/-- `difflib.GetUnifiedDiffString` of `UnifiedDiff{A, B, Context: 3}`:
the concatenated groups (so the empty string when no group survives). -/
def writeUnifiedDiffString (A B : List (List Char)) : List Char :=
  ((getGroupedOpcodes (b2j B) A B 3).map (writeGroup A B)).flatten

/-! ### The matcher on two equal sequences

`findLongestMatch` on two copies of the same sequence returns the whole
range: the chain scan only ever improves `best` on the main diagonal
(an off-diagonal chain of length `k` forces a diagonal chain of length at
least `k` that the scan has already seen), and the extension passes then
stretch a diagonal match to the full range.  `chainN l i j` is the chain
length the scan computes at row `i`, column `j`. -/

/-- The chain length at row `i`, column `j` of the scan of
`findLongestMatch` over two copies of `l`: consecutive equal, non-popular
lines ending at `(i, j)`. -/
def chainN (l : List (List Char)) : Nat → Nat → Nat
  | 0, j =>
    if j < l.length ∧ l.getD j [] = l.getD 0 [] ∧ isPopular l (l.getD j []) = false
    then 1 else 0
  | i + 1, 0 =>
    if 0 < l.length ∧ l.getD 0 [] = l.getD (i + 1) [] ∧ isPopular l (l.getD 0 []) = false
    then 1 else 0
  | i + 1, j + 1 =>
    if j + 1 < l.length ∧ l.getD (j + 1) [] = l.getD (i + 1) [] ∧
        isPopular l (l.getD (j + 1) []) = false
    then chainN l i j + 1 else 0

theorem chainN_pos_iff (l : List (List Char)) (i j : Nat) :
    0 < chainN l i j ↔
      (j < l.length ∧ l.getD j [] = l.getD i [] ∧ isPopular l (l.getD j []) = false) := by
  match i, j with
  | 0, j =>
    rw [chainN]
    split
    · exact iff_of_true (by omega) (by assumption)
    · exact iff_of_false (by omega) (by assumption)
  | i + 1, 0 =>
    conv_lhs => rw [chainN]
    split
    · exact iff_of_true (by omega) (by assumption)
    · exact iff_of_false (by omega) (by assumption)
  | i + 1, j + 1 =>
    conv_lhs => rw [chainN]
    split
    · exact iff_of_true (by omega) (by assumption)
    · exact iff_of_false (by omega) (by assumption)

theorem chainN_le_left (l : List (List Char)) : ∀ i j, chainN l i j ≤ i + 1 := by
  intro i
  induction i with
  | zero => intro j; rw [chainN]; split <;> omega
  | succ i ih =>
    intro j
    match j with
    | 0 => conv_lhs => rw [chainN]
           split <;> omega
    | j + 1 =>
      conv_lhs => rw [chainN]
      split
      · exact Nat.succ_le_succ (ih j)
      · omega

theorem chainN_le_diagR (l : List (List Char)) : ∀ i j, chainN l i j ≤ chainN l j j := by
  intro i
  induction i with
  | zero =>
    intro j
    conv_lhs => rw [chainN]
    split
    · rename_i h
      have hpos : 0 < chainN l j j := by
        rw [chainN_pos_iff]
        exact ⟨h.1, rfl, h.2.2⟩
      omega
    · omega
  | succ i ih =>
    intro j
    match j with
    | 0 =>
      conv_lhs => rw [chainN]
      split
      · rename_i h
        have hpos : 0 < chainN l 0 0 := by
          rw [chainN_pos_iff]
          exact ⟨h.1, rfl, h.2.2⟩
        omega
      · omega
    | j + 1 =>
      conv_lhs => rw [chainN]
      split
      · rename_i h
        conv_rhs => rw [chainN]
        rw [if_pos ⟨h.1, rfl, h.2.2⟩]
        exact Nat.succ_le_succ (ih j)
      · omega

theorem chainN_le_diagL (l : List (List Char)) :
    ∀ i j, i < l.length → chainN l i j ≤ chainN l i i := by
  intro i
  induction i with
  | zero =>
    intro j hi
    conv_lhs => rw [chainN]
    split
    · rename_i h
      have hpos : 0 < chainN l 0 0 := by
        rw [chainN_pos_iff]
        refine ⟨hi, rfl, ?_⟩
        rw [← h.2.1]
        exact h.2.2
      omega
    · omega
  | succ i ih =>
    intro j hi
    match j with
    | 0 =>
      conv_lhs => rw [chainN]
      split
      · rename_i h
        have hpos : 0 < chainN l (i + 1) (i + 1) := by
          rw [chainN_pos_iff]
          refine ⟨hi, rfl, ?_⟩
          rw [h.2.1] at h
          exact h.2.2
        omega
      · omega
    | j + 1 =>
      conv_lhs => rw [chainN]
      split
      · rename_i h
        conv_rhs => rw [chainN]
        rw [if_pos ⟨hi, rfl, by rw [h.2.1] at h; exact h.2.2⟩]
        exact Nat.succ_le_succ (ih j (by omega))
      · omega

/-- The contents of the per-row chain map once every column has been
written: the chain length at each in-range column, zero elsewhere. -/
def colVal (l : List (List Char)) (i : Nat) (x : Int) : Nat :=
  if 0 ≤ x ∧ x < (l.length : Int) then chainN l i x.toNat else 0

theorem colVal_natCast (l : List (List Char)) (i j : Nat) (hj : j < l.length) :
    colVal l i ((j : Nat) : Int) = chainN l i j := by
  unfold colVal
  rw [if_pos ⟨Int.natCast_nonneg j, by exact_mod_cast hj⟩, Int.toNat_natCast]

/-- The row invariant of the chain scan over two copies of `l`: starting
from a diagonal best and a map whose written columns carry their chain
values, one row keeps the best diagonal, bounded by the row number, and at
least every diagonal chain seen so far; the finished map carries the whole
row. -/
theorem flmInner_spec (l : List (List Char)) (i : Nat) (hi : i < l.length)
    (j2len : Int → Nat) :
    ∀ (js : List Nat) (new : Int → Nat) (d s : Nat),
    (∀ j ∈ js, j < l.length) →
    (∀ j ∈ js, j2len ((j : Int) - 1) + 1 = chainN l i j) →
    List.Pairwise (fun x y => x < y) js →
    (i ∈ js ∨ chainN l i i ≤ s) →
    (∀ j ∈ js, j < i → chainN l j j ≤ s) →
    (∀ x : Int, (∀ j ∈ js, (j : Int) ≠ x) → new x = colVal l i x) →
    d + s ≤ i + 1 →
    ∃ (d2 s2 : Nat),
      (flmInner j2len 0 l.length i js new ((d : Int), (d : Int), s)).2
          = ((d2 : Int), (d2 : Int), s2)
      ∧ (∀ x : Int, (flmInner j2len 0 l.length i js new ((d : Int), (d : Int), s)).1 x
          = colVal l i x)
      ∧ d2 + s2 ≤ i + 1 ∧ s ≤ s2 ∧ chainN l i i ≤ s2 := by
  intro js
  induction js with
  | nil =>
    intro new d s _ _ _ hii _ hnew hds
    refine ⟨d, s, rfl, ?_, hds, le_refl s, ?_⟩
    · intro x
      exact hnew x (fun j hj => absurd hj (List.not_mem_nil j))
    · rcases hii with h | h
      · exact absurd h (List.not_mem_nil i)
      · exact h
  | cons j js ih =>
    intro new d s hjsL hk hsort hii hdiag hnew hds
    have hjL : j < l.length := hjsL j (List.mem_cons_self j js)
    have hkk : j2len ((j : Int) - 1) + 1 = chainN l i j :=
      hk j (List.mem_cons_self j js)
    have hkkI : (j2len ((j : Int) - 1) : Int) + 1 = (chainN l i j : Int) := by
      exact_mod_cast hkk
    have hstep : flmInner j2len 0 l.length i (j :: js) new ((d : Int), (d : Int), s)
        = flmInner j2len 0 l.length i js
            (fun x => if x = (j : Int) then chainN l i j else new x)
            (if s < chainN l i j then
              ((i : Int) - (chainN l i j) + 1, (j : Int) - (chainN l i j) + 1,
               chainN l i j)
             else ((d : Int), (d : Int), s)) := by
      simp only [flmInner]
      rw [if_neg (by omega : ¬ j < 0), if_neg (by omega : ¬ l.length ≤ j), hkk, hkkI]
    by_cases hcase : s < chainN l i j
    · -- a strict improvement: it can only happen on the diagonal
      have hji : j = i := by
        rcases Nat.lt_trichotomy j i with hlt | heq | hgt
        · have h1 : chainN l i j ≤ chainN l j j := chainN_le_diagR l i j
          have h2 := hdiag j (List.mem_cons_self j js) hlt
          omega
        · exact heq
        · exfalso
          have hii2 : chainN l i i ≤ s := by
            rcases hii with hmem | hle
            · rcases List.mem_cons.mp hmem with h0 | h0
              · omega
              · have := (List.pairwise_cons.mp hsort).1 i h0
                omega
            · exact hle
          have h1 : chainN l i j ≤ chainN l i i := chainN_le_diagL l i j hi
          omega
      subst hji
      rw [hstep, if_pos hcase]
      have hle1 : chainN l j j ≤ j + 1 := chainN_le_left l j j
      have hcast : (j : Int) - (chainN l j j) + 1 = ((j + 1 - chainN l j j : Nat) : Int) := by
        rw [Nat.cast_sub hle1]
        push_cast
        ring
      rw [hcast]
      obtain ⟨d2, s2, h1, h2, h3, h4, h5⟩ :=
        ih (fun x => if x = (j : Int) then chainN l j j else new x)
          (j + 1 - chainN l j j) (chainN l j j)
          (fun x hx => hjsL x (List.mem_cons_of_mem j hx))
          (fun x hx => hk x (List.mem_cons_of_mem j hx))
          (List.pairwise_cons.mp hsort).2
          (Or.inr (le_refl _))
          (fun x hx hlt => le_trans (hdiag x (List.mem_cons_of_mem j hx) hlt)
            (le_of_lt hcase))
          (by
            intro x hx
            dsimp only
            by_cases hxj : x = (j : Int)
            · subst hxj
              rw [if_pos rfl, colVal_natCast l j j hjL]
            · rw [if_neg hxj]
              refine hnew x ?_
              intro j2 hj2
              rcases List.mem_cons.mp hj2 with h0 | h0
              · rw [h0]; exact fun hc => hxj hc.symm
              · exact hx j2 h0)
          (by omega)
      exact ⟨d2, s2, h1, h2, h3, by omega, h5⟩
    · -- no improvement
      rw [hstep, if_neg hcase]
      obtain ⟨d2, s2, h1, h2, h3, h4, h5⟩ :=
        ih (fun x => if x = (j : Int) then chainN l i j else new x) d s
          (fun x hx => hjsL x (List.mem_cons_of_mem j hx))
          (fun x hx => hk x (List.mem_cons_of_mem j hx))
          (List.pairwise_cons.mp hsort).2
          (by
            rcases hii with hmem | hle
            · rcases List.mem_cons.mp hmem with h0 | h0
              · refine Or.inr ?_
                rw [h0] at hcase ⊢
                omega
              · exact Or.inl h0
            · exact Or.inr hle)
          (fun x hx hlt => hdiag x (List.mem_cons_of_mem j hx) hlt)
          (by
            intro x hx
            dsimp only
            by_cases hxj : x = (j : Int)
            · subst hxj
              rw [if_pos rfl, colVal_natCast l i j hjL]
            · rw [if_neg hxj]
              refine hnew x ?_
              intro j2 hj2
              rcases List.mem_cons.mp hj2 with h0 | h0
              · rw [h0]; exact fun hc => hxj hc.symm
              · exact hx j2 h0)
          hds
      exact ⟨d2, s2, h1, h2, h3, h4, h5⟩


theorem mem_b2j (l : List (List Char)) (i j : Nat) (hj : j ∈ b2j l (l.getD i [])) :
    j < l.length ∧ l.getD j [] = l.getD i [] ∧ isPopular l (l.getD j []) = false := by
  unfold b2j at hj
  split at hj
  · exact absurd hj (List.not_mem_nil j)
  · rename_i hpop
    unfold positions at hj
    rw [List.mem_filter, List.mem_range] at hj
    have heq : l.getD j [] = l.getD i [] := by
      have := hj.2
      rwa [beq_iff_eq] at this
    refine ⟨hj.1, heq, ?_⟩
    rw [heq]
    exact Bool.not_eq_true _ ▸ (Bool.eq_false_iff.mpr hpop)

theorem b2j_self (l : List (List Char)) (i : Nat) (hi : i < l.length)
    (hpop : isPopular l (l.getD i []) = false) : i ∈ b2j l (l.getD i []) := by
  unfold b2j
  rw [if_neg (show ¬isPopular l (l.getD i []) = true from by rw [hpop]; simp)]
  unfold positions
  rw [List.mem_filter, List.mem_range]
  refine ⟨hi, ?_⟩
  show (l.getD i [] == l.getD i []) = true
  rw [beq_iff_eq]

theorem pairwise_b2j (l : List (List Char)) (e : List Char) :
    List.Pairwise (fun x y => x < y) (b2j l e) := by
  unfold b2j
  split
  · exact List.Pairwise.nil
  · exact List.Pairwise.filter _ (List.pairwise_lt_range l.length)

theorem chainN_diag_zero_of_popular (l : List (List Char)) (i : Nat)
    (hpop : isPopular l (l.getD i []) = true) : chainN l i i = 0 := by
  by_contra h
  have hc := (chainN_pos_iff l i i).mp (Nat.pos_of_ne_zero h)
  rw [hc.2.2] at hpop
  exact Bool.false_ne_true hpop

theorem colVal_zero_not_listed (l : List (List Char)) (i : Nat) (x : Int)
    (hx : ∀ j ∈ b2j l (l.getD i []), (j : Int) ≠ x) : colVal l i x = 0 := by
  unfold colVal
  split
  · rename_i hcond
    by_contra h
    have hpos := (chainN_pos_iff l i x.toNat).mp (Nat.pos_of_ne_zero h)
    have hpopI : isPopular l (l.getD i []) = false := by
      rw [← hpos.2.1]
      exact hpos.2.2
    have hmem : x.toNat ∈ b2j l (l.getD i []) := by
      unfold b2j
      rw [if_neg (show ¬isPopular l (l.getD i []) = true from by rw [hpopI]; simp)]
      unfold positions
      rw [List.mem_filter, List.mem_range]
      refine ⟨hpos.1, ?_⟩
      show (l.getD x.toNat [] == l.getD i []) = true
      rw [beq_iff_eq]
      exact hpos.2.1
    exact hx x.toNat hmem (Int.toNat_of_nonneg hcond.1)
  · rfl

/-- The value the scan computes at row `i0`, column `j` from the previous
row's map is exactly the chain length at `(i0, j)`. -/
theorem chainN_from_prev_row (l : List (List Char)) (i0 j : Nat)
    (hc : j < l.length ∧ l.getD j [] = l.getD i0 [] ∧ isPopular l (l.getD j []) = false)
    (j2len : Int → Nat)
    (hj2 : ∀ x : Int, j2len x = if i0 = 0 then 0 else colVal l (i0 - 1) x) :
    j2len ((j : Int) - 1) + 1 = chainN l i0 j := by
  match i0, j with
  | 0, j =>
    rw [hj2]
    conv_rhs => rw [chainN]
    rw [if_pos hc]
    norm_num
  | i + 1, 0 =>
    rw [hj2]
    rw [if_neg (Nat.succ_ne_zero i)]
    rw [show ((0 : Nat) : Int) - 1 = (-1 : Int) from by norm_num]
    conv_rhs => rw [chainN]
    rw [if_pos ⟨by omega, hc.2.1, hc.2.2⟩]
    unfold colVal
    rw [if_neg (by omega)]
  | i + 1, j + 1 =>
    rw [hj2]
    rw [if_neg (Nat.succ_ne_zero i), Nat.add_sub_cancel]
    rw [show ((j + 1 : Nat) : Int) - 1 = ((j : Nat) : Int) from by push_cast; ring]
    rw [colVal_natCast l i j (by omega)]
    conv_rhs => rw [chainN]
    rw [if_pos hc]

/-- The whole-scan invariant: starting at row `i0` with the previous row's
map, the best stays diagonal, bounded by the total length, and at least
every diagonal chain. -/
theorem flmRows_spec (l : List (List Char)) :
    ∀ (n i0 : Nat) (j2len : Int → Nat) (d s : Nat),
    i0 + n = l.length →
    (∀ x : Int, j2len x = if i0 = 0 then 0 else colVal l (i0 - 1) x) →
    (∀ i2 : Nat, i2 < i0 → chainN l i2 i2 ≤ s) →
    d + s ≤ i0 →
    ∃ (d2 s2 : Nat),
      flmRows (b2j l) l 0 l.length (List.range' i0 n) j2len ((d : Int), (d : Int), s)
          = ((d2 : Int), (d2 : Int), s2)
      ∧ d2 + s2 ≤ l.length ∧ ∀ i2 < l.length, chainN l i2 i2 ≤ s2 := by
  intro n
  induction n with
  | zero =>
    intro i0 j2len d s hL hj2 hprev hds
    refine ⟨d, s, rfl, by omega, ?_⟩
    intro i2 hi2
    exact hprev i2 (by omega)
  | succ n ihn =>
    intro i0 j2len d s hL hj2 hprev hds
    have hi0 : i0 < l.length := by omega
    rw [List.range'_succ]
    simp only [flmRows]
    obtain ⟨d2, s2, h1, h2, h3, h4, h5⟩ :=
      flmInner_spec l i0 hi0 j2len (b2j l (l.getD i0 [])) (fun _ => 0) d s
        (fun j hj => (mem_b2j l i0 j hj).1)
        (fun j hj => chainN_from_prev_row l i0 j (mem_b2j l i0 j hj) j2len hj2)
        (pairwise_b2j l (l.getD i0 []))
        (by
          rcases hpop : isPopular l (l.getD i0 []) with _ | _
          · exact Or.inl (b2j_self l i0 hi0 hpop)
          · refine Or.inr ?_
            rw [chainN_diag_zero_of_popular l i0 hpop]
            omega)
        (fun j hj hlt => hprev j hlt)
        (fun x hx => (colVal_zero_not_listed l i0 x hx).symm)
        (by omega)
    rw [h1]
    refine ihn (i0 + 1) _ d2 s2 (by omega) ?_ ?_ (by omega)
    · intro x
      rw [if_neg (Nat.succ_ne_zero i0), Nat.add_sub_cancel]
      exact h2 x
    · intro i2 hi2
      rcases Nat.lt_or_ge i2 i0 with hlt | hge
      · exact le_trans (hprev i2 hlt) h4
      · have : i2 = i0 := by omega
        rw [this]
        exact h5


/-- On two copies of the same sequence the backward extension walks a
diagonal match all the way to the start. -/
theorem extendBack_self (l : List (List Char)) :
    ∀ (d : Nat) (fuel s : Nat), d ≤ fuel →
    extendBack l l 0 0 fuel ((d : Int), (d : Int), s) = (0, 0, s + d) := by
  intro d
  induction d with
  | zero =>
    intro fuel s _
    match fuel with
    | 0 => rfl
    | fuel + 1 =>
      simp only [extendBack]
      rw [if_neg (by simp)]
      norm_num
  | succ d ihd =>
    intro fuel s hle
    match fuel with
    | fuel + 1 =>
      simp only [extendBack]
      rw [if_pos (by
        refine ⟨?_, ?_, ?_⟩ <;> first | trivial | omega)]
      rw [show ((d + 1 : Nat) : Int) - 1 = ((d : Nat) : Int) from by push_cast; ring]
      rw [ihd fuel (s + 1) (by omega)]
      rw [show s + 1 + d = s + (d + 1) from by omega]

/-- On two copies of the same sequence the forward extension walks a
diagonal match all the way to the end. -/
theorem extendFwd_self (l : List (List Char)) :
    ∀ (fuel t : Nat), t ≤ l.length → l.length - t ≤ fuel →
    extendFwd l l l.length l.length fuel ((0 : Int), (0 : Int), t) = (0, 0, l.length) := by
  intro fuel
  induction fuel with
  | zero =>
    intro t h1 h2
    have ht : t = l.length := by omega
    rw [ht]
    rfl
  | succ fuel ihf =>
    intro t h1 h2
    rcases Nat.lt_or_ge t l.length with hlt | hge
    · simp only [extendFwd]
      rw [if_pos (by
        refine ⟨?_, ?_, ?_⟩ <;> first | trivial | omega)]
      exact ihf (t + 1) (by omega) (by omega)
    · have ht : t = l.length := by omega
      rw [ht]
      simp only [extendFwd]
      rw [if_neg (by omega)]

/-- `findLongestMatch` over the full ranges of two copies of the same
sequence returns the whole range. -/
theorem findLongestMatch_self (l : List (List Char)) :
    findLongestMatch (b2j l) l l 0 l.length 0 l.length = (0, 0, l.length) := by
  obtain ⟨d2, s2, h1, h2, h3⟩ :=
    flmRows_spec l l.length 0 (fun _ => 0) 0 0 (by omega)
      (fun x => by rw [if_pos rfl]) (fun i2 h => by omega) (by omega)
  unfold findLongestMatch
  rw [Nat.sub_zero, h1]
  rw [extendBack_self l d2 l.length s2 (by omega)]
  exact extendFwd_self l l.length (s2 + d2) (by omega) (by omega)

/-- `matchBlocks` on two copies of the same sequence: one block covering
everything (or none at all when the sequence is empty). -/
theorem matchBlocks_self (l : List (List Char)) (fuel : Nat) :
    matchBlocks (b2j l) l l (fuel + 1) 0 l.length 0 l.length
      = if 0 < l.length then [((0 : Int), (0 : Int), l.length)] else [] := by
  rcases Nat.eq_zero_or_pos l.length with h0 | hpos
  · have hf := findLongestMatch_self l
    rw [h0] at hf
    simp [matchBlocks, hf, h0]
  · simp [matchBlocks, findLongestMatch_self l, hpos]

/-- `GetMatchingBlocks` on two copies of the same sequence: the full block
(absent when empty) plus the sentinel. -/
theorem getMatchingBlocks_self (l : List (List Char)) :
    getMatchingBlocks (b2j l) l l
      = if 0 < l.length
        then [((0 : Int), (0 : Int), l.length), ((l.length : Int), (l.length : Int), 0)]
        else [((0 : Int), (0 : Int), 0)] := by
  have hmb := matchBlocks_self l (l.length + l.length)
  rcases Nat.eq_zero_or_pos l.length with h0 | hpos
  · rw [if_neg (by omega)] at hmb
    unfold getMatchingBlocks
    rw [hmb, if_neg (by omega)]
    simp [nonAdjacent, h0]
  · rw [if_pos hpos] at hmb
    unfold getMatchingBlocks
    rw [hmb, if_pos hpos]
    simp [nonAdjacent, hpos]

/-- `GetOpCodes` on two copies of the same sequence: a single equal opcode
(none when the sequence is empty). -/
theorem getOpCodes_self (l : List (List Char)) :
    getOpCodes (b2j l) l l
      = if 0 < l.length
        then [⟨'e', 0, (l.length : Int), 0, (l.length : Int)⟩]
        else [] := by
  unfold getOpCodes
  rw [getMatchingBlocks_self l]
  rcases Nat.eq_zero_or_pos l.length with h0 | hpos
  · rw [if_neg (by omega), if_neg (by omega)]
    simp [opCodesLoop]
  · rw [if_pos hpos, if_pos hpos]
    simp [opCodesLoop, hpos]

/-- No group survives `GetGroupedOpcodes` on two copies of the same
sequence: the single equal opcode is truncated to at most three lines of
context on each side and then dropped as an all-equal group. -/
theorem getGroupedOpcodes_self (l : List (List Char)) :
    getGroupedOpcodes (b2j l) l l 3 = [] := by
  unfold getGroupedOpcodes
  rw [getOpCodes_self l]
  rcases Nat.eq_zero_or_pos l.length with h0 | hpos
  · rw [if_neg (by omega)]
    norm_num [truncFirst, truncLast, groupLoop, closeGroup]
  · rw [if_pos hpos]
    simp only [if_neg (by simp : ¬ ([⟨'e', 0, (l.length : Int), 0, (l.length : Int)⟩]
      : List OpCode) = [])]
    simp only [truncFirst, truncLast, if_pos rfl]
    simp only [groupLoop]
    rw [if_neg (by
      rintro ⟨-, habs⟩
      have hmin : min (l.length : Int) (max 0 ((l.length : Int) - 3) + 3)
          ≤ max 0 ((l.length : Int) - 3) + 3 := Int.min_le_right _ _
      omega)]
    simp only [List.nil_append, groupLoop, closeGroup]
    simp

/-- `GetUnifiedDiffString` of two equal line sequences is empty. -/
theorem writeUnifiedDiffString_self (A : List (List Char)) :
    writeUnifiedDiffString A A = [] := by
  unfold writeUnifiedDiffString
  rw [getGroupedOpcodes_self A]
  rfl


/-- The replacer of `GetUnifiedDiffString` (`plan.go` line 122):
`strings.NewReplacer` replaces non-overlapping occurrences left to right,
the two-character sequence backslash-n by a newline and two spaces, and
backslash-quote by a double quote. -/
def replaceEsc : List Char → List Char
  | '\\' :: 'n' :: cs => '\n' :: ' ' :: ' ' :: replaceEsc cs
  | '\\' :: '"' :: cs => '"' :: replaceEsc cs
  | c :: cs => c :: replaceEsc cs
  | [] => []

/-- `ResourceChangeData.GetUnifiedDiffString` (`plan.go` lines 112-134):
marshal the stored before and after values with two-space indentation,
apply the cosmetic replacer, split into lines and take the unified diff
with three lines of context.  The Go function's error returns cover only
marshalling failures and writer errors, neither of which occurs for the
values stored here, so the model is total. -/
def ResourceChangeData.getUnifiedDiffString (r : ResourceChangeData) : String :=
  ⟨writeUnifiedDiffString
    (splitLines (replaceEsc (encodeIndent r.resourceChange.before).data))
    (splitLines (replaceEsc (encodeIndent r.resourceChange.after).data))⟩

/-- C5: for a retained resource change whose before and after values are
deeply equal after normalization, the record that reaches the diff
renderer (the stored effect of `formatJsonString`) yields a unified diff
with no line beginning with a plus or minus sign --- the diff text is in
fact empty. -/
theorem c5_equal_normalized_no_diff_lines (r : ResourceChangeData)
    (h : specNormalizeStored r.resourceChange.before
        = specNormalizeStored r.resourceChange.after) :
    ((splitAfterNl (ResourceChangeData.getUnifiedDiffString
        (specNormalizeRCD r)).data).all
      (fun line => !(line.headD ' ' == '+') && !(line.headD ' ' == '-'))) = true := by
  have hdiff : ResourceChangeData.getUnifiedDiffString (specNormalizeRCD r) = "" := by
    show (⟨writeUnifiedDiffString
      (splitLines (replaceEsc
        (encodeIndent (specNormalizeStored r.resourceChange.before)).data))
      (splitLines (replaceEsc
        (encodeIndent (specNormalizeStored r.resourceChange.after)).data))⟩ : String) = ""
    rw [h, writeUnifiedDiffString_self]
  rw [hdiff]
  rfl

theorem c5_equal_normalized_no_diff_lines_witness :
    ((splitAfterNl (ResourceChangeData.getUnifiedDiffString (specNormalizeRCD
        ⟨⟨"aws_instance.foo", "aws_instance", "foo", ["update"],
          Json.null, Json.null⟩⟩)).data).all
      (fun line => !(line.headD ' ' == '+') && !(line.headD ' ' == '-'))) = true :=
  c5_equal_normalized_no_diff_lines
    ⟨⟨"aws_instance.foo", "aws_instance", "foo", ["update"], Json.null, Json.null⟩⟩ rfl


/-! ## The report template

`planTemplateBody` (`plan.go` lines 16-41) with Go `text/template`
whitespace-trim semantics expands to a fixed document shape: the summary
line (its trailing newline trimmed by the following left-trimming `if`
action), one optional section per non-empty address list (each beginning
with a newline, the per-address newlines right-trimmed onto the next
bullet), one unconditional newline (the text before the right-trimming
`if .ResourceChanges` action), and, when at least one record was
retained, the details block.  `codeFence` is the template function
returning eight backticks. -/

def codeFence : String := "````````"

/-- One `    - <address>` bullet per address, each on its own line. -/
def bulletList (xs : List String) : String :=
  String.join (xs.map (fun a => "\n    - " ++ a))

/-- One optional section of the template: nothing for an empty list,
otherwise a newline, the title and the bullets. -/
def addrBlock (title : String) (xs : List String) : String :=
  if xs.isEmpty then "" else "\n- " ++ title ++ bulletList xs

/-- The summary line of the template. -/
def summaryLine (p : PlanData) : String :=
  "### " ++ Nat.repr p.createdAddresses.length ++ " to add, "
    ++ Nat.repr p.updatedAddresses.length ++ " to change, "
    ++ Nat.repr p.deletedAddresses.length ++ " to destroy, "
    ++ Nat.repr p.replacedAddresses.length ++ " to replace."

/-- One diff block of the details section. -/
def diffBlock (r : ResourceChangeData) : String :=
  "\n" ++ codeFence ++ "diff\n# " ++ r.resourceChange.type ++ "."
    ++ r.resourceChange.name ++ " " ++ r.headerSuffix ++ "\n"
    ++ r.getUnifiedDiffString ++ codeFence ++ "\n"

/-- The details section, present when at least one record was retained. -/
def detailsBlock (rs : List ResourceChangeData) : String :=
  if rs.isEmpty then ""
  else "<details><summary>Change details</summary>\n"
    ++ String.join (rs.map diffBlock) ++ "\n</details>\n"

/-- `(*PlanData).Render` (`plan.go` lines 150-165): the template output.
The Go method's error returns cover only template-parse failure (the
template is a constant that parses) and writer errors, so the output text
is a function of the plan data. -/
def PlanData.render (p : PlanData) : String :=
  summaryLine p
    ++ addrBlock "add" p.createdAddresses
    ++ addrBlock "change" p.updatedAddresses
    ++ addrBlock "destroy" p.deletedAddresses
    ++ addrBlock "replace" p.replacedAddresses
    ++ "\n" ++ detailsBlock p.resourceChanges

/-- The first line of a document: the characters before the first
newline. -/
def firstLineOf (s : String) : String := ⟨s.data.takeWhile (fun c => c ≠ '\n')⟩

theorem takeWhile_all_append {p : Char → Bool} :
    ∀ (l1 : List Char) (d : Char) (l2 : List Char),
    (∀ c ∈ l1, p c = true) → p d = false →
    (l1 ++ d :: l2).takeWhile p = l1 := by
  intro l1
  induction l1 with
  | nil =>
    intro d l2 _ hd
    simp [List.takeWhile_cons, hd]
  | cons c cs ih =>
    intro d l2 hall hd
    simp only [List.cons_append, List.takeWhile_cons]
    rw [hall c (List.mem_cons_self c cs)]
    simp only [if_true]
    rw [ih d l2 (fun x hx => hall x (List.mem_cons_of_mem c hx)) hd]

/-- No character of the string is a newline. -/
def noNl (s : String) : Prop := ∀ c ∈ s.data, c ≠ '\n'

theorem noNl_append {s1 s2 : String} (h1 : noNl s1) (h2 : noNl s2) :
    noNl (s1 ++ s2) := by
  intro c hc
  rw [String.data_append] at hc
  rcases List.mem_append.mp hc with h | h
  · exact h1 c h
  · exact h2 c h

theorem digitChar_ne_newline (n : Nat) : Nat.digitChar n ≠ '\n' := by
  rcases Nat.lt_or_ge n 16 with h | h
  · interval_cases n <;> decide
  · delta Nat.digitChar
    iterate 16 rw [if_neg (by omega)]
    decide

theorem toDigitsCore_ne_newline (b : Nat) :
    ∀ (fuel n : Nat) (ds : List Char), (∀ c ∈ ds, c ≠ '\n') →
    ∀ c ∈ Nat.toDigitsCore b fuel n ds, c ≠ '\n' := by
  intro fuel
  induction fuel with
  | zero =>
    intro n ds hds
    exact hds
  | succ fuel ih =>
    intro n ds hds c hc
    simp only [Nat.toDigitsCore] at hc
    split at hc
    · rcases List.mem_cons.mp hc with h | h
      · rw [h]
        exact digitChar_ne_newline _
      · exact hds c h
    · refine ih (n / b) (Nat.digitChar (n % b) :: ds) ?_ c hc
      intro x hx
      rcases List.mem_cons.mp hx with h | h
      · rw [h]
        exact digitChar_ne_newline _
      · exact hds x h

theorem noNl_repr (n : Nat) : noNl (Nat.repr n) := by
  intro c hc
  exact toDigitsCore_ne_newline 10 (n + 1) n []
    (fun x hx => absurd hx (List.not_mem_nil x)) c hc

theorem summaryLine_noNl (p : PlanData) : noNl (summaryLine p) := by
  unfold summaryLine
  repeat' apply noNl_append
  all_goals first | exact noNl_repr _ | (unfold noNl; decide)

theorem addrBlock_data_shape (t : String) (xs : List String) :
    (addrBlock t xs).data = [] ∨ ∃ u, (addrBlock t xs).data = '\n' :: u := by
  unfold addrBlock
  split
  · exact Or.inl rfl
  · right
    refine ⟨'-' :: ' ' :: (t.data ++ (bulletList xs).data), ?_⟩
    rw [String.data_append, String.data_append]
    rfl

theorem cons_nl_of_append (l r : List Char)
    (hl : l = [] ∨ ∃ u, l = '\n' :: u) (hr : ∃ u, r = '\n' :: u) :
    ∃ u, l ++ r = '\n' :: u := by
  rcases hl with h | ⟨u, hu⟩
  · rw [h]
    simpa using hr
  · exact ⟨u ++ r, by rw [hu]; rfl⟩

theorem render_tail_shape (p : PlanData) :
    ∃ t : List Char, (PlanData.render p).data = (summaryLine p).data ++ '\n' :: t := by
  have hshape : ∃ t : List Char,
      (addrBlock "add" p.createdAddresses).data
        ++ ((addrBlock "change" p.updatedAddresses).data
        ++ ((addrBlock "destroy" p.deletedAddresses).data
        ++ ((addrBlock "replace" p.replacedAddresses).data
        ++ ('\n' :: (detailsBlock p.resourceChanges).data)))) = '\n' :: t := by
    refine cons_nl_of_append _ _ (addrBlock_data_shape _ _) ?_
    refine cons_nl_of_append _ _ (addrBlock_data_shape _ _) ?_
    refine cons_nl_of_append _ _ (addrBlock_data_shape _ _) ?_
    refine cons_nl_of_append _ _ (addrBlock_data_shape _ _) ?_
    exact ⟨(detailsBlock p.resourceChanges).data, rfl⟩
  obtain ⟨t, ht⟩ := hshape
  refine ⟨t, ?_⟩
  unfold PlanData.render
  simp only [String.data_append, List.append_assoc]
  rw [← ht]
  rfl

/-- C7: the first line of every rendered report is the summary
`### <N> to add, <N> to change, <N> to destroy, <N> to replace.` whose
four numbers are exactly the lengths of the four address lists. -/
theorem c7_summary_first_line (p : PlanData) :
    firstLineOf (PlanData.render p)
      = "### " ++ Nat.repr p.createdAddresses.length ++ " to add, "
        ++ Nat.repr p.updatedAddresses.length ++ " to change, "
        ++ Nat.repr p.deletedAddresses.length ++ " to destroy, "
        ++ Nat.repr p.replacedAddresses.length ++ " to replace." := by
  obtain ⟨t, ht⟩ := render_tail_shape p
  show (⟨(PlanData.render p).data.takeWhile (fun c => c ≠ '\n')⟩ : String)
    = summaryLine p
  rw [ht, takeWhile_all_append (summaryLine p).data '\n' t
    (fun c hc => decide_eq_true (summaryLine_noNl p c hc)) (by decide)]

theorem c7_summary_first_line_witness :
    firstLineOf (PlanData.render ⟨["aws_instance.foo"], [], [], [],
        [⟨⟨"aws_instance.foo", "aws_instance", "foo", ["create"],
          Json.null, Json.obj (.cons "ami" (Json.str "abc") .nil)⟩⟩]⟩)
      = "### " ++ Nat.repr 1 ++ " to add, " ++ Nat.repr 0 ++ " to change, "
        ++ Nat.repr 0 ++ " to destroy, " ++ Nat.repr 0 ++ " to replace." :=
  c7_summary_first_line _

/-- C8: order preservation.  The four address lists of the plan data the
renderer receives are the in-order projections of the classifier's
filters, the retained-record sequence is the in-order normalization of
the kept records, all five are sublists of the corresponding whole-plan
projections (hence listed in original plan order), and the rendered
document lays the diff blocks out in exactly that retained order. -/
theorem c8_order_preserved (cs : List ResourceChange) (q : PlanData)
    (hq : (classifyChanges cs).formatJsonString = Except.ok q) :
    (q.createdAddresses
        = (cs.filter (fun c => Actions.create c.actions)).map (fun c => c.address) ∧
      q.updatedAddresses
        = (cs.filter (fun c => Actions.update c.actions)).map (fun c => c.address) ∧
      q.deletedAddresses
        = (cs.filter (fun c => Actions.delete c.actions)).map (fun c => c.address) ∧
      q.replacedAddresses
        = (cs.filter (fun c => Actions.replace c.actions)).map (fun c => c.address) ∧
      q.resourceChanges = (cs.filter keep).map (fun c => specNormalizeRCD ⟨c⟩)) ∧
    (List.Sublist q.createdAddresses (cs.map (fun c => c.address)) ∧
      List.Sublist q.updatedAddresses (cs.map (fun c => c.address)) ∧
      List.Sublist q.deletedAddresses (cs.map (fun c => c.address)) ∧
      List.Sublist q.replacedAddresses (cs.map (fun c => c.address)) ∧
      List.Sublist q.resourceChanges (cs.map (fun c => specNormalizeRCD ⟨c⟩))) ∧
    PlanData.render q
      = summaryLine q ++ addrBlock "add" q.createdAddresses
        ++ addrBlock "change" q.updatedAddresses
        ++ addrBlock "destroy" q.deletedAddresses
        ++ addrBlock "replace" q.replacedAddresses
        ++ "\n" ++ detailsBlock q.resourceChanges := by
  rw [pd_formatJsonString_eq] at hq
  injection hq with hq
  have hfields : q.createdAddresses
        = (cs.filter (fun c => Actions.create c.actions)).map (fun c => c.address) ∧
      q.updatedAddresses
        = (cs.filter (fun c => Actions.update c.actions)).map (fun c => c.address) ∧
      q.deletedAddresses
        = (cs.filter (fun c => Actions.delete c.actions)).map (fun c => c.address) ∧
      q.replacedAddresses
        = (cs.filter (fun c => Actions.replace c.actions)).map (fun c => c.address) ∧
      q.resourceChanges = (cs.filter keep).map (fun c => specNormalizeRCD ⟨c⟩) := by
    rw [← hq, classifyChanges_spec cs]
    refine ⟨rfl, rfl, rfl, rfl, ?_⟩
    show ((cs.filter keep).map
        (fun c => (⟨c⟩ : ResourceChangeData))).map specNormalizeRCD = _
    rw [List.map_map]
    rfl
  obtain ⟨f1, f2, f3, f4, f5⟩ := hfields
  refine ⟨⟨f1, f2, f3, f4, f5⟩, ⟨?_, ?_, ?_, ?_, ?_⟩, rfl⟩
  · rw [f1]
    exact (List.filter_sublist cs).map _
  · rw [f2]
    exact (List.filter_sublist cs).map _
  · rw [f3]
    exact (List.filter_sublist cs).map _
  · rw [f4]
    exact (List.filter_sublist cs).map _
  · rw [f5]
    exact (List.filter_sublist cs).map _


theorem c8_order_preserved_witness :
    ((⟨["aws_instance.foo"], [], [], [],
        [⟨⟨"aws_instance.foo", "aws_instance", "foo", ["create"],
          Json.null, Json.obj (.cons "ami" (Json.str "abc") .nil)⟩⟩]⟩ : PlanData).createdAddresses
      = ([(⟨"aws_instance.foo", "aws_instance", "foo", ["create"],
          Json.null, Json.obj (.cons "ami" (Json.str "abc") .nil)⟩ : ResourceChange)].filter
            (fun c => Actions.create c.actions)).map (fun c => c.address)) :=
  (c8_order_preserved [⟨"aws_instance.foo", "aws_instance", "foo", ["create"],
      Json.null, Json.obj (.cons "ami" (Json.str "abc") .nil)⟩]
    ⟨["aws_instance.foo"], [], [], [],
      [⟨⟨"aws_instance.foo", "aws_instance", "foo", ["create"],
        Json.null, Json.obj (.cons "ami" (Json.str "abc") .nil)⟩⟩]⟩
    (by rfl)).1.1


/-! ## Plan construction

`NewPlanData` (`plan.go` lines 167-200) unmarshals the input bytes into a
`tfjson.Plan`, sanitizes it, classifies the resource changes and
normalizes the retained records.  The `tfjson` struct definitions and the
sanitizer live outside this repository's sources; the decoding below is
modelled from the spec (section 4.1): malformed JSON or a structure that
does not match the expected plan shape is a decode error carrying a
diagnostic, and on success every resource change record is materialized.
Only the fields this pipeline reads are decoded. -/

/-- The last binding of a key in an object, as `encoding/json` keeps the
last occurrence of a duplicated key. -/
def lookupLast (fs : JObj) (k : String) : Option Json :=
  match fs with
  | .nil => none
  | .cons k2 v rest =>
    match lookupLast rest k with
    | some w => some w
    | none => if k2 = k then some v else none

/-- `JArr` as a list of values. -/
def jarrToList : JArr → List Json
  | .nil => []
  | .cons x xs => x :: jarrToList xs

/-- Modelled from the spec (section 4.1): decode a string field.  A
missing key or a JSON null leaves the Go zero value (the empty string);
any other non-string value is a shape error. -/
def getStrField (fs : JObj) (k : String) : Except String String :=
  match lookupLast fs k with
  | none => .ok ""
  | some .null => .ok ""
  | some (.str s) => .ok s
  | some _ => .error ("cannot parse input: field " ++ k ++ " is not a string")

/-- Modelled from the spec (section 4.1): decode a list-of-strings field.
A missing key or null leaves the zero value (no actions); any other
non-array value, or an array with a non-string element, is a shape
error. -/
def getActionsField (fs : JObj) (k : String) : Except String (List String) :=
  match lookupLast fs k with
  | none => .ok []
  | some .null => .ok []
  | some (.arr xs) =>
    (jarrToList xs).mapM (fun v =>
      match v with
      | .str s => Except.ok s
      | _ => Except.error ("cannot parse input: field " ++ k ++ " is not a string array"))
  | some _ => .error ("cannot parse input: field " ++ k ++ " is not a string array")

/-- Modelled from the spec (section 4.1): one resource change record.  A
record that is not an object, or whose `change` is missing or not an
object, does not match the expected plan shape (the classifier reads
`c.Change.Actions` unconditionally), so it is a decode error; `before`
and `after` default to null when absent. -/
def decodeResourceChange (j : Json) : Except String ResourceChange :=
  match j with
  | .obj fs => do
    let address ← getStrField fs "address"
    let type ← getStrField fs "type"
    let name ← getStrField fs "name"
    match lookupLast fs "change" with
    | some (.obj cfs) => do
      let actions ← getActionsField cfs "actions"
      pure ⟨address, type, name, actions,
        (lookupLast cfs "before").getD Json.null,
        (lookupLast cfs "after").getD Json.null⟩
    | _ => .error "cannot parse input: resource change without a change object"
  | _ => .error "cannot parse input: resource change is not an object"

/-- Modelled from the spec (section 4.1): decode the plan.  Input that is
not syntactically valid JSON, or whose top level is not an object (or
null), fails; a missing or null `resource_changes` decodes to no
records. -/
def decodePlan (input : String) : Except String (List ResourceChange) :=
  match parseJson input with
  | none => .error "cannot parse input"
  | some (.obj fs) =>
    match lookupLast fs "resource_changes" with
    | none => .ok []
    | some .null => .ok []
    | some (.arr xs) => (jarrToList xs).mapM decodeResourceChange
    | some _ => .error "cannot parse input: resource_changes is not an array"
  | some .null => .ok []
  | some _ => .error "cannot parse input: plan is not an object"

/-- Modelled from the spec (section 6, Sanitizer collaborator): an
external operation returning a plan of identical shape with sensitive
leaf values redacted.  Its only effect visible to the claims is shape and
order preservation, so it is modelled as the identity. -/
def sanitizePlan (cs : List ResourceChange) : Except String (List ResourceChange) :=
  .ok cs

/-- `NewPlanData` (`plan.go` lines 167-200): decode, sanitize, classify,
normalize. -/
def newPlanData (input : String) : Except String PlanData := do
  let plan ← decodePlan input
  let sanitized ← sanitizePlan plan
  (classifyChanges sanitized).formatJsonString

/-- C9: plan construction on an input that is not valid JSON fails with
the parse error, and on any input whose decoding reports a shape error it
fails with that error; in the `Except` model a construction that fails
returns no plan data, so no report (not even a partial one) can be
rendered from it. -/
theorem c9_parse_error_no_plan :
    (∀ input : String, jsonValid input = false →
      newPlanData input = Except.error "cannot parse input") ∧
    (∀ (input : String) (e : String), decodePlan input = Except.error e →
      newPlanData input = Except.error e) := by
  constructor
  · intro input h
    have hnone : parseJson input = none := by
      unfold jsonValid at h
      rcases hp : parseJson input with _ | j
      · rfl
      · rw [hp] at h
        simp at h
    unfold newPlanData decodePlan
    rw [hnone]
    rfl
  · intro input e h
    unfold newPlanData
    rw [h]
    rfl


end J2MD
